import Mathlib

set_option maxRecDepth 100000

/-!
# A verification development for the `pyfilesystem` block-storage engine

Shallow embedding of `src/lib/VirtualDisk.py`, `src/lib/Inode.py` and
`src/lib/FileSystem.py`.  Byte strings are `List Nat`; the backing image is a
`List Nat` carried inside the `VirtualDisk` state; fallible Python methods
become `Except PyErr _` values, where `PyErr` names the Python exception that
escapes.  State mutation becomes explicit state passing: a method that mutates
the disk or filesystem object returns the updated record.
-/

/-- The Python exceptions the embedded code can raise.  `read_block` and
`write_block` raise `ValueError` with distinct messages for a bad index versus
an oversized payload; we keep the two apart as `outOfRangeError` and
`oversizedWriteError`.  `nameError` models the `NameError` that CPython raises
at `raise DiskFullError(...)` in `FileSystem._allocate_new_block`, because the
name `DiskFullError` is defined nowhere in the repository. -/
inductive PyErr where
  | outOfRangeError
  | oversizedWriteError
  | indexError
  | fileNotFoundError
  | nameError
  | ioError
  | zeroDivisionError
  deriving DecidableEq, Repr

instance {ε α : Type} [DecidableEq ε] [DecidableEq α] : DecidableEq (Except ε α) :=
  fun x y =>
    match x, y with
    | .error a, .error b =>
      if h : a = b then .isTrue (by rw [h]) else .isFalse (fun hh => h (Except.error.inj hh))
    | .error _, .ok _ => .isFalse (fun hh => Except.noConfusion hh)
    | .ok _, .error _ => .isFalse (fun hh => Except.noConfusion hh)
    | .ok a, .ok b =>
      if h : a = b then .isTrue (by rw [h]) else .isFalse (fun hh => h (Except.ok.inj hh))

/-- Overwrite the bytes of `img` starting at byte offset `off` with `bs`
(Python `f.seek(off); f.write(bs)` on the image): bytes before `off` and from
`off + bs.length` on are kept.  If `off` lies beyond the end of the image the
gap is zero-filled, as a POSIX seek-past-EOF write does. -/
def writeBytes (img : List Nat) (off : Nat) (bs : List Nat) : List Nat :=
  img.take off ++ List.replicate (off - img.length) 0 ++ bs ++ img.drop (off + bs.length)

/-- Python slice assignment `buf[off:off+repl.length] = repl` on a bytearray,
in the length-preserving case used by the code. -/
def spliceAt (buf : List Nat) (off : Nat) (repl : List Nat) : List Nat :=
  buf.take off ++ repl ++ buf.drop (off + repl.length)

/-- `bytes.rstrip(b'\0')` / `str.rstrip('\0')`, at the byte level. -/
def rstripNulls (l : List Nat) : List Nat :=
  (l.reverse.dropWhile (· == 0)).reverse

/-- Embedding of `src/lib/VirtualDisk.py`: the fixed-size backing image plus
the geometry the constructor records.  `total_blocks = total_size_bytes /
block_size` as in the constructor. -/
structure VirtualDisk where
  total_size_bytes : Nat
  block_size : Nat
  total_blocks : Nat
  image : List Nat
  deriving DecidableEq, Repr

namespace VirtualDisk

/-- `VirtualDisk.read_block`: raises `ValueError` unless `0 <= n <
total_blocks`, otherwise returns the `block_size` bytes at offset
`n * block_size` of the image. -/
def read_block (d : VirtualDisk) (block_number : Nat) : Except PyErr (List Nat) :=
  if block_number < d.total_blocks then
    .ok ((d.image.drop (block_number * d.block_size)).take d.block_size)
  else
    .error .outOfRangeError

/-- `VirtualDisk.write_block`: raises `ValueError` for an index outside
`[0, total_blocks)`; pads a short payload with zero bytes up to `block_size`;
raises `ValueError` for a payload longer than `block_size`; otherwise
overwrites exactly that block's bytes in the image. -/
def write_block (d : VirtualDisk) (block_number : Nat) (data : List Nat) :
    Except PyErr VirtualDisk :=
  if block_number < d.total_blocks then
    if data.length > d.block_size then
      .error .oversizedWriteError
    else
      let padded := data ++ List.replicate (d.block_size - data.length) 0
      .ok { d with image := writeBytes d.image (block_number * d.block_size) padded }
  else
    .error .outOfRangeError

/-- `VirtualDisk.initializeBitmap`: builds a fresh all-zero bitmap of
`block_size` bytes, sets byte 0 to 1 (`bitmap[0] = 1`, an `IndexError` if the
block size is zero) and writes it to block 0.  The constructor calls this
unconditionally. -/
def initializeBitmap (d : VirtualDisk) : Except PyErr VirtualDisk :=
  if 0 < d.block_size then
    d.write_block 0 ((List.replicate d.block_size 0).set 0 1)
  else
    .error .indexError

/-- The `VirtualDisk` constructor.  `existing = none` models a `disk_path`
with no file behind it: the constructor creates `total_size_bytes` zero bytes.
`existing = some img` models a path whose file already holds `img`.  Either
way the constructor then runs `initializeBitmap` on the image. -/
def new (existing : Option (List Nat)) (total_size_bytes : Nat := 1024 * 1024)
    (block_size_bytes : Nat := 4096) : Except PyErr VirtualDisk :=
  let image := existing.getD (List.replicate total_size_bytes 0)
  let d : VirtualDisk :=
    { total_size_bytes := total_size_bytes
      block_size := block_size_bytes
      total_blocks := total_size_bytes / block_size_bytes
      image := image }
  d.initializeBitmap

/-- The loop of `get_free_block`: `for blockNum in range(1, total_blocks): if
bitmap[blockNum] == 0: return blockNum`, embedded as recursion over the list
of indices the `range` yields; an index beyond the bitmap buffer raises
`IndexError`; falling off the loop returns Python `None`. -/
def scanFree (bitmap : List Nat) : List Nat → Except PyErr (Option Nat)
  | [] => .ok none
  | blockNum :: rest =>
    match bitmap[blockNum]? with
    | none => .error .indexError
    | some b => if b = 0 then .ok (some blockNum) else scanFree bitmap rest

/-- `VirtualDisk.get_free_block`: re-reads the bitmap from block 0 and scans
block indices `1, ..., total_blocks - 1` in ascending order for the first with
bitmap byte 0; returns `None` when every one is used. -/
def get_free_block (d : VirtualDisk) : Except PyErr (Option Nat) :=
  match d.read_block 0 with
  | .error e => .error e
  | .ok bitmap => scanFree bitmap (List.range' 1 (d.total_blocks - 1))

/-- `VirtualDisk.mark_block_free`: read-modify-write of the bitmap block,
clearing byte `block_number`.  No block-index range check is performed; only
an index at or beyond the bitmap buffer's length raises (`IndexError`). -/
def mark_block_free (d : VirtualDisk) (block_number : Nat) : Except PyErr VirtualDisk :=
  match d.read_block 0 with
  | .error e => .error e
  | .ok bitmap =>
    if block_number < bitmap.length then
      d.write_block 0 (bitmap.set block_number 0)
    else
      .error .indexError

/-- `VirtualDisk.mark_block_used`: read-modify-write of the bitmap block,
setting byte `block_number` to 1.  No block-index range check is performed. -/
def mark_block_used (d : VirtualDisk) (block_number : Nat) : Except PyErr VirtualDisk :=
  match d.read_block 0 with
  | .error e => .error e
  | .ok bitmap =>
    if block_number < bitmap.length then
      d.write_block 0 (bitmap.set block_number 1)
    else
      .error .indexError

/-- `VirtualDisk.is_block_used`: re-reads the bitmap and tests byte
`block_number` against 1.  No block-index range check is performed. -/
def is_block_used (d : VirtualDisk) (block_number : Nat) : Except PyErr Bool :=
  match d.read_block 0 with
  | .error e => .error e
  | .ok bitmap =>
    match bitmap[block_number]? with
    | none => .error .indexError
    | some b => .ok (b = 1)

/-- `VirtualDisk.delete_block`: range-checks the index, then delegates to
`mark_block_free`. -/
def delete_block (d : VirtualDisk) (block_number : Nat) : Except PyErr VirtualDisk :=
  if block_number < d.total_blocks then
    d.mark_block_free block_number
  else
    .error .outOfRangeError

/-- `VirtualDisk.get_total_blocks`. -/
def get_total_blocks (d : VirtualDisk) : Nat := d.total_blocks

/-- `VirtualDisk.get_block_size`. -/
def get_block_size (d : VirtualDisk) : Nat := d.block_size

/-- The bitmap byte for block `n`, as `is_block_used`/`get_free_block` see it
after re-reading block 0 (the first `block_size` bytes of the image). -/
def bitmapByte (d : VirtualDisk) (n : Nat) : Option Nat :=
  (d.image.take d.block_size)[n]?

/-- Geometry coherence of a disk state: the image is large enough for every
valid block, and blocks are nonempty.  The constructor establishes this for
any geometry with `block_size > 0` and it is preserved by every operation. -/
def wf (d : VirtualDisk) : Prop :=
  0 < d.block_size ∧ d.total_blocks * d.block_size ≤ d.image.length

instance (d : VirtualDisk) : Decidable d.wf := by
  unfold wf; infer_instance

end VirtualDisk

/-- Embedding of `src/lib/Inode.py`: name, byte size, ordered physical block
list, creation timestamp and the fixed kind `"file"`.  `time.time()` returns
the ambient clock; we thread the clock value in as an explicit argument where
the code reads it, so `created_time` is a plain number here. -/
structure Inode where
  name : String
  size : Nat
  blocks : List Nat
  created_time : Nat
  type : String
  deriving DecidableEq, Repr

/-- The `Inode(name)` constructor: size 0, no blocks, current time, kind
`"file"`. -/
def Inode.new (name : String) (now : Nat) : Inode :=
  { name := name, size := 0, blocks := [], created_time := now, type := "file" }

/-- Modelled from the spec: the "serialize metadata to bytes" half of the
JSON persistence framing (`json.dumps` in `save_inode_table`, a stdlib
collaborator outside `src/`).  It renders the name-to-inode mapping in
`json.dumps` default format — `\x7b"k": v, ...\x7d` with `", "` and `": "`
separators — with each inode in its `to_dict` field order.  Timestamps are
rendered as their decimal digits. -/
def jsonQuote (s : String) : String := "\"" ++ s ++ "\""

/-- Modelled from the spec: `json.dumps` rendering of a list of integers. -/
def jsonNatList (l : List Nat) : String :=
  "[" ++ String.intercalate ", " (l.map Nat.repr) ++ "]"

/-- Modelled from the spec: `json.dumps` rendering of `Inode.to_dict`. -/
def inodeToJson (i : Inode) : String :=
  "\x7b" ++ jsonQuote "name" ++ ": " ++ jsonQuote i.name ++ ", "
    ++ jsonQuote "size" ++ ": " ++ Nat.repr i.size ++ ", "
    ++ jsonQuote "blocks" ++ ": " ++ jsonNatList i.blocks ++ ", "
    ++ jsonQuote "created_time" ++ ": " ++ Nat.repr i.created_time ++ ", "
    ++ jsonQuote "type" ++ ": " ++ jsonQuote i.type ++ "\x7d"

/-- Modelled from the spec: `json.dumps` of the whole inode table. -/
def jsonDumps (tbl : List (String × Inode)) : String :=
  "\x7b" ++ String.intercalate ", "
      (tbl.map fun p => jsonQuote p.1 ++ ": " ++ inodeToJson p.2) ++ "\x7d"

/-- `str.encode()`: the serialized table is ASCII, where one character is one
UTF-8 byte. -/
def strToBytes (s : String) : List Nat := s.data.map Char.toNat

/-- Modelled from the spec: the "parse bytes to metadata" half of the JSON
persistence framing (`json.loads` plus `Inode.from_dict`).  The spec fixes
that empty/all-null block-1 content decodes to an empty table, and the engine
below only ever reaches this parser with nonempty stripped content when the
backing image held a previously serialized table; only the serialized empty
mapping is decoded here, and any other content is treated as undecodable
(which the loader self-heals, per the spec's recovery policy). -/
def jsonLoads (bytes : List Nat) : Option (List (String × Inode)) :=
  if bytes = strToBytes "\x7b\x7d" then some [] else none

/-- Embedding of `src/lib/FileSystem.py`: the disk handle, the block number
holding the serialized inode table, and the in-memory name-to-inode mapping.
Python's insertion-ordered `dict` becomes an association list with unique
keys. -/
structure FileSystem where
  disk : VirtualDisk
  inode_table_block : Nat
  inodes : List (String × Inode)
  deriving DecidableEq, Repr

namespace FileSystem

/-- `dict.__setitem__`: replace the value in place when the key is present,
append otherwise (Python dicts keep insertion order). -/
def dictInsert (tbl : List (String × Inode)) (k : String) (v : Inode) :
    List (String × Inode) :=
  match tbl with
  | [] => [(k, v)]
  | (k0, v0) :: rest =>
    if k0 = k then (k, v) :: rest else (k0, v0) :: dictInsert rest k v

/-- `dict.__delitem__` for a present key. -/
def dictRemove (tbl : List (String × Inode)) (k : String) : List (String × Inode) :=
  match tbl with
  | [] => []
  | (k0, v0) :: rest =>
    if k0 = k then rest else (k0, v0) :: dictRemove rest k

/-- `FileSystem.save_inode_table`: serialize the full mapping, write it to the
inode-table block (block 1), then mark block 1 used in the bitmap.  A table
longer than one block makes `write_block` raise, and nothing here catches. -/
def save_inode_table (fs : FileSystem) : Except PyErr FileSystem :=
  match fs.disk.write_block fs.inode_table_block (strToBytes (jsonDumps fs.inodes)) with
  | .error e => .error e
  | .ok disk =>
    match disk.mark_block_used 1 with
    | .error e => .error e
    | .ok disk => .ok { fs with disk := disk }

/-- `FileSystem.load_inode_table`: read block 1, strip trailing NULs; empty
content leaves the (empty) in-memory table as is, decodable content replaces
it, and any exception along the way (unreadable block, undecodable content) is
caught and answered by persisting the current table (`save_inode_table`),
whose own failures would propagate. -/
def load_inode_table (fs : FileSystem) : Except PyErr FileSystem :=
  match fs.disk.read_block fs.inode_table_block with
  | .error _ => fs.save_inode_table
  | .ok data =>
    let json_str := rstripNulls data
    if json_str.isEmpty then .ok fs
    else
      match jsonLoads json_str with
      | some tbl => .ok { fs with inodes := tbl }
      | none => fs.save_inode_table

/-- The `FileSystem(disk_path)` constructor: build the `VirtualDisk` with the
default 1 MiB / 4096-byte geometry, start from an empty in-memory table, and
run `load_inode_table`.  (`RESERVED_BLOCKS` and `FIRST_DATA_BLOCK` are
constants no claim touches.) -/
def init (existing : Option (List Nat)) : Except PyErr FileSystem :=
  match VirtualDisk.new existing with
  | .error e => .error e
  | .ok disk =>
    FileSystem.load_inode_table { disk := disk, inode_table_block := 1, inodes := [] }

/-- `FileSystem.create_file`: refuse (return `False`) when the name exists,
otherwise insert a fresh inode and persist the table. -/
def create_file (fs : FileSystem) (name : String) (now : Nat) :
    Except PyErr (Bool × FileSystem) :=
  if (fs.inodes.lookup name).isSome then
    .ok (false, fs)
  else
    match FileSystem.save_inode_table
        { fs with inodes := dictInsert fs.inodes name (Inode.new name now) } with
    | .error e => .error e
    | .ok fs2 => .ok (true, fs2)

/-- The accumulation loop of `read_file`: for each physical block, append the
whole block, or only `inode.size - len(data)` bytes of it once a whole block
would overshoot the file size. -/
def readLoop (fs : FileSystem) (size : Nat) (acc : List Nat) :
    List Nat → Except PyErr (List Nat)
  | [] => .ok acc
  | physicalBlock :: rest =>
    match fs.disk.read_block physicalBlock with
    | .error e => .error e
    | .ok block_data =>
      if acc.length + fs.disk.get_block_size > size then
        readLoop fs size (acc ++ block_data.take (size - acc.length)) rest
      else
        readLoop fs size (acc ++ block_data) rest

/-- `FileSystem.read_file`: `None` for an absent name, `b''` for an inode with
no blocks, otherwise the concatenation of the blocks truncated to
`inode.size` bytes. -/
def read_file (fs : FileSystem) (name : String) : Except PyErr (Option (List Nat)) :=
  match fs.inodes.lookup name with
  | none => .ok none
  | some inode =>
    if inode.blocks = [] then .ok (some [])
    else
      match readLoop fs inode.size [] inode.blocks with
      | .error e => .error e
      | .ok data => .ok (some data)

/-- The block-freeing loop of `delete_file`. -/
def freeBlocks (disk : VirtualDisk) : List Nat → Except PyErr VirtualDisk
  | [] => .ok disk
  | b :: rest =>
    match disk.mark_block_free b with
    | .error e => .error e
    | .ok disk => freeBlocks disk rest

/-- `FileSystem.delete_file`: `False` for an absent name; otherwise free every
block of the inode, remove it from the table and persist the table. -/
def delete_file (fs : FileSystem) (name : String) : Except PyErr (Bool × FileSystem) :=
  match fs.inodes.lookup name with
  | none => .ok (false, fs)
  | some inode =>
    match freeBlocks fs.disk inode.blocks with
    | .error e => .error e
    | .ok disk =>
      match FileSystem.save_inode_table
          { fs with disk := disk, inodes := dictRemove fs.inodes name } with
      | .error e => .error e
      | .ok fs2 => .ok (true, fs2)

/-- `FileSystem._get_inode`: the inode, or `FileNotFoundError`. -/
def getInode (fs : FileSystem) (name : String) : Except PyErr Inode :=
  match fs.inodes.lookup name with
  | none => .error .fileNotFoundError
  | some inode => .ok inode

/-- `FileSystem._calculate_blocks_needed`: `start_block = offset // B`,
`end_block = (offset + data_length + B - 1) // B`, and the needed set is
`range(start_block, end_block + 1)` — the *inclusive* range `[start_block,
end_block]`.  CPython iterates a set of small consecutive ints in ascending
numeric order, so the set is embedded as the ascending list. -/
def calculate_blocks_needed (fs : FileSystem) (offset data_length : Nat) : List Nat :=
  let start_block := offset / fs.disk.block_size
  let end_block := (offset + data_length + fs.disk.block_size - 1) / fs.disk.block_size
  List.range' start_block (end_block + 1 - start_block)

/-- `FileSystem._allocate_new_block`: ask the allocator for a free block;
`None` answers hit `raise DiskFullError(...)`, and since `DiskFullError` is an
undefined name, what CPython actually raises there is `NameError`. -/
def allocate_new_block (fs : FileSystem) : Except PyErr Nat :=
  match fs.disk.get_free_block with
  | .error e => .error e
  | .ok none => .error .nameError
  | .ok (some b) => .ok b

/-- The allocation loop of `_ensure_blocks_allocated`: for each needed logical
block absent from the mapping, allocate a new physical block, mark it used and
append the pair to the mapping. -/
def ensureLoop (fs : FileSystem) (mapping : List (Nat × Nat)) :
    List Nat → Except PyErr (List (Nat × Nat) × FileSystem)
  | [] => .ok (mapping, fs)
  | logical_block :: rest =>
    if (mapping.lookup logical_block).isSome then
      ensureLoop fs mapping rest
    else
      match fs.allocate_new_block with
      | .error e => .error e
      | .ok new_block =>
        match fs.disk.mark_block_used new_block with
        | .error e => .error e
        | .ok disk =>
          ensureLoop { fs with disk := disk }
            (mapping ++ [(logical_block, new_block)]) rest

/-- `FileSystem._ensure_blocks_allocated`: seed the logical-to-physical
mapping from `enumerate(inode.blocks)` and run the allocation loop over the
needed blocks.  (The guard `if new_block is None: raise IOError` in the source
is dead code: `_allocate_new_block` never returns `None`.) -/
def ensure_blocks_allocated (fs : FileSystem) (inode : Inode) (blocks_needed : List Nat) :
    Except PyErr (List (Nat × Nat) × FileSystem) :=
  ensureLoop fs ((List.range' 0 inode.blocks.length).zip inode.blocks) blocks_needed

/-- The read-modify-write loop of `_write_data_to_blocks`: while data remains,
find the logical block and in-block offset of `current_offset`, stop (`break`)
if the mapping lacks that logical block, otherwise read the physical block,
splice in as many bytes as fit, write it back and advance.  The `fuel`
argument only bounds the number of iterations so the recursion is structural:
each iteration advances `data_offset` by at least one byte (the in-block
offset is always below a nonzero block size), so `data.length - data_offset`
iterations always suffice and the fuel-exhausted clause is unreachable from
`write_data_to_blocks`' call. -/
def writeLoop (data : List Nat) (mapping : List (Nat × Nat)) :
    Nat → FileSystem → Nat → Nat → Except PyErr FileSystem
  | 0, fs, _, _ => .ok fs
  | fuel + 1, fs, current_offset, data_offset =>
    if data_offset < data.length then
      if fs.disk.block_size = 0 then .error .zeroDivisionError
      else
        match mapping.lookup (current_offset / fs.disk.block_size) with
        | none => .ok fs
        | some physical_block =>
          match fs.disk.read_block physical_block with
          | .error e => .error e
          | .ok current_block =>
            match fs.disk.write_block physical_block
                (spliceAt current_block (current_offset % fs.disk.block_size)
                  ((data.drop data_offset).take
                    (min (fs.disk.block_size - current_offset % fs.disk.block_size)
                      (data.length - data_offset)))) with
            | .error e => .error e
            | .ok disk =>
              writeLoop data mapping fuel { fs with disk := disk }
                (current_offset +
                  min (fs.disk.block_size - current_offset % fs.disk.block_size)
                    (data.length - data_offset))
                (data_offset +
                  min (fs.disk.block_size - current_offset % fs.disk.block_size)
                    (data.length - data_offset))
    else
      .ok fs

/-- `FileSystem._write_data_to_blocks`. -/
def write_data_to_blocks (fs : FileSystem) (data : List Nat) (offset : Nat)
    (mapping : List (Nat × Nat)) : Except PyErr FileSystem :=
  writeLoop data mapping data.length fs offset 0

/-- Python `sorted` on integer keys (an insertion sort computing the ascending
reordering). -/
def insertSorted (n : Nat) : List Nat → List Nat
  | [] => [n]
  | m :: rest => if n ≤ m then n :: m :: rest else m :: insertSorted n rest

/-- Python `sorted` on integer keys. -/
def sortNat : List Nat → List Nat
  | [] => []
  | n :: rest => insertSorted n (sortNat rest)

/-- `FileSystem._update_inode`: rebuild the inode's block list as the
mapping's values in sorted-key order, raise the size to `max(old, offset +
data_length)`, and persist the table.  The Python code mutates the shared
`Inode` object already held in the dict; here the updated record replaces the
entry under its name. -/
def update_inode (fs : FileSystem) (name : String) (inode : Inode)
    (offset data_length : Nat) (mapping : List (Nat × Nat)) : Except PyErr FileSystem :=
  FileSystem.save_inode_table { fs with
    inodes := dictInsert fs.inodes name { inode with
      blocks := (sortNat (mapping.map Prod.fst)).map (fun i => (mapping.lookup i).getD 0)
      size := max inode.size (offset + data_length) } }

/-- The body of `write_file`'s `try` block: look up the inode, compute the
needed logical blocks, ensure they are allocated, write the data and update
the inode. -/
def writeAttempt (fs : FileSystem) (name : String) (data : List Nat) (offset : Nat) :
    Except PyErr FileSystem :=
  match fs.getInode name with
  | .error e => .error e
  | .ok inode =>
    match fs.ensure_blocks_allocated inode (fs.calculate_blocks_needed offset data.length) with
    | .error e => .error e
    | .ok (block_mapping, fs1) =>
      match fs1.write_data_to_blocks data offset block_mapping with
      | .error e => .error e
      | .ok fs2 =>
        fs2.update_inode name inode offset data.length block_mapping

/-- `FileSystem.write_file`: run the coordinated write; `except
FileNotFoundError` converts exactly that exception into a `False` return
(reaching it means `_get_inode` failed before any mutation), and every other
exception escapes to the caller. -/
def write_file (fs : FileSystem) (name : String) (data : List Nat) (offset : Nat := 0) :
    Except PyErr (Bool × FileSystem) :=
  match fs.writeAttempt name data offset with
  | .ok fs3 => .ok (true, fs3)
  | .error .fileNotFoundError => .ok (false, fs)
  | .error e => .error e

/-- `FileSystem.list_files`: one record per inode, in table order. -/
def list_files (fs : FileSystem) : List (String × Nat × List Nat × Nat) :=
  fs.inodes.map fun p => (p.1, p.2.size, p.2.blocks, p.2.created_time)

end FileSystem

/-- The contents of block `n` as `read_block` returns them: the `block_size`
bytes of the image starting at byte offset `n * block_size`. -/
def VirtualDisk.blockAt (d : VirtualDisk) (n : Nat) : List Nat :=
  (d.image.drop (n * d.block_size)).take d.block_size

/-- Two disk states with the same geometry and the same image size (the block
operations never change either). -/
def VirtualDisk.geomEq (d d' : VirtualDisk) : Prop :=
  d'.total_size_bytes = d.total_size_bytes ∧ d'.block_size = d.block_size ∧
    d'.total_blocks = d.total_blocks ∧ d'.image.length = d.image.length

/-- Well-formedness of an engine state: a coherent disk, and the inode-table
block number the constructor sets (`self.inode_table_block = 1`). -/
def FileSystem.wfFS (fs : FileSystem) : Prop :=
  fs.disk.wf ∧ fs.inode_table_block = 1

instance (fs : FileSystem) : Decidable fs.wfFS := by
  unfold FileSystem.wfFS; infer_instance

/-- The needed-block range as the claim about `_calculate_blocks_needed`
words it: the half-open range `[offset // B, ceil((offset + len) / B))`.
Stated from the claim's words, to be compared with the source's
`calculate_blocks_needed`. -/
def specBlocksNeeded (fs : FileSystem) (offset data_length : Nat) : List Nat :=
  let start_block := offset / fs.disk.block_size
  let ceil_end := (offset + data_length + fs.disk.block_size - 1) / fs.disk.block_size
  List.range' start_block (ceil_end - start_block)

/-! ## Concrete states used to exercise the development

A small geometry (512-byte image, 128-byte blocks, 4 blocks) large enough for
the serialized inode table to fit a block, and a tiny geometry (16-byte image,
4-byte blocks) whose table block is too small for any nonempty table. -/

/-- A 512-byte disk, block size 128, 4 blocks; bitmap marks blocks 0 and 1
used, blocks 2 and 3 free. -/
def diskW : VirtualDisk :=
  { total_size_bytes := 512, block_size := 128, total_blocks := 4
    image := 1 :: 1 :: List.replicate 510 0 }

/-- An engine over `diskW` with an empty inode table. -/
def fs0C : FileSystem :=
  { disk := diskW, inode_table_block := 1, inodes := [] }

/-- `fs0C` after `create_file "a"`. -/
def fs1C : FileSystem :=
  ((fs0C.create_file "a" 0).toOption.getD (false, fs0C)).2

/-- `fs1C` after `write_file "a" [1, 2, 3] 0`. -/
def fs2C : FileSystem :=
  ((fs1C.write_file "a" [1, 2, 3] 0).toOption.getD (false, fs1C)).2

/-- The inode of `"a"` in `fs2C`. -/
def inodeC4 : Inode :=
  (fs2C.inodes.lookup "a").getD (Inode.new "a" 0)

/-- `fs1C` after the far-beyond-EOF write `write_file "a" [7] 256`. -/
def fs4C : FileSystem :=
  ((fs1C.write_file "a" [7] 256).toOption.getD (false, fs1C)).2

/-- `fs1C` after the empty write `write_file "a" [] 0`. -/
def fs9C : FileSystem :=
  ((fs1C.write_file "a" [] 0).toOption.getD (false, fs1C)).2

/-- The allocation result for a two-block write on `fs1C`'s fresh file. -/
def ensC : List (Nat × Nat) × FileSystem :=
  (fs1C.ensure_blocks_allocated (Inode.new "a" 0)
    (fs1C.calculate_blocks_needed 0 128)).toOption.getD ([], fs1C)

/-- `fs0C` after a save of the empty table. -/
def fs0Csaved : FileSystem :=
  (fs0C.save_inode_table).toOption.getD fs0C

/-- A full 16-byte disk (4 blocks of 4 bytes, every block marked used) holding
one empty file: no free block remains for a write. -/
def fsFullC : FileSystem :=
  { disk := { total_size_bytes := 16, block_size := 4, total_blocks := 4
              image := 1 :: 1 :: 1 :: 1 :: List.replicate 12 0 }
    inode_table_block := 1
    inodes := [("a", { name := "a", size := 0, blocks := [], created_time := 0
                       type := "file" })] }

/-- A 16-byte disk, 4-byte blocks, blocks 2 and 3 free. -/
def disk16 : VirtualDisk :=
  { total_size_bytes := 16, block_size := 4, total_blocks := 4
    image := 1 :: 1 :: List.replicate 14 0 }

/-- A table whose serialization exceeds the 4-byte block of `disk16`. -/
def fsJumboC : FileSystem :=
  { disk := disk16, inode_table_block := 1
    inodes := [("abc", { name := "abc", size := 0, blocks := [], created_time := 0
                         type := "file" })] }

/-- An empty table over `disk16`: any created file makes the table oversized. -/
def fsEmptyTblC : FileSystem :=
  { disk := disk16, inode_table_block := 1, inodes := [] }

/-- Two empty files over `disk16`: deleting one still leaves an oversized
table. -/
def fsTwoC : FileSystem :=
  { disk := disk16, inode_table_block := 1
    inodes := [("a", { name := "a", size := 0, blocks := [], created_time := 0
                       type := "file" }),
               ("b", { name := "b", size := 0, blocks := [], created_time := 0
                       type := "file" })] }

/-- One file with a single allocated block over `disk16`: an empty write
reaches the table persist, which cannot fit. -/
def fsOneBlkC : FileSystem :=
  { disk := disk16, inode_table_block := 1
    inodes := [("a", { name := "a", size := 0, blocks := [2], created_time := 0
                       type := "file" })] }

/-- A 16-byte disk with 8-byte blocks: `total_blocks = 2 < 8 = block_size`,
so bitmap bytes 2..7 lie beyond the meaningful range. -/
def diskC10 : VirtualDisk :=
  { total_size_bytes := 16, block_size := 8, total_blocks := 2
    image := List.replicate 16 0 }

/-- An existing 512-byte image whose bitmap marks blocks 0, 1 and 2 used, for
reopening a device over it. -/
def imgC5 : List Nat := 1 :: 1 :: 1 :: List.replicate 509 0

/-- The disk state the `VirtualDisk` constructor produces over a fresh
(all-zero) image: a fresh bitmap block (only byte 0 set) followed by zeros. -/
def freshDisk (ts bs : Nat) : VirtualDisk :=
  { total_size_bytes := ts, block_size := bs, total_blocks := ts / bs
    image := ((List.replicate bs 0).set 0 1) ++ List.replicate (ts - bs) 0 }

/-- The engine state `FileSystem.init none` produces on the default 1 MiB
geometry. -/
def fsInitDefault : FileSystem :=
  { disk := freshDisk (1024 * 1024) 4096, inode_table_block := 1, inodes := [] }

/-! ## Generic helper lemmas -/

theorem ceil_div_mul_ge (a b : Nat) (hb : 0 < b) : a ≤ ((a + b - 1) / b) * b := by
  rcases Nat.eq_zero_or_pos a with ha | ha
  · simp [ha]
  · obtain ⟨c, rfl⟩ : ∃ c, a = c + 1 := ⟨a - 1, by omega⟩
    have h1 : c + 1 + b - 1 = c + b := by omega
    have h2 : (c + b) / b = c / b + 1 := Nat.add_div_right _ hb
    have h3 : b * (c / b) + c % b = c := Nat.div_add_mod c b
    have h4 : c % b < b := Nat.mod_lt _ hb
    have h5 : (c / b + 1) * b = b * (c / b) + b := by ring
    rw [h1, h2, h5]
    omega

theorem lt_ceil_div_of_mul_lt (j a b : Nat) (hb : 0 < b) (h : j * b < a) :
    j < (a + b - 1) / b := by
  have h1 : a ≤ ((a + b - 1) / b) * b := ceil_div_mul_ge a b hb
  exact Nat.lt_of_mul_lt_mul_right (Nat.lt_of_lt_of_le h h1)

theorem ceil_div_le_iff (a b k : Nat) (hb : 0 < b) :
    (a + b - 1) / b ≤ k ↔ a ≤ k * b := by
  constructor
  · intro h
    exact le_trans (ceil_div_mul_ge a b hb) (Nat.mul_le_mul_right b h)
  · intro h
    have hkb : (k + 1) * b = k * b + b := by ring
    have h2 : a + b - 1 < (k + 1) * b := by rw [hkb]; omega
    have h3 := (Nat.div_lt_iff_lt_mul hb).mpr h2
    omega

theorem lookup_cons_self {κ α : Type} [BEq κ] [LawfulBEq κ] (k : κ) (v : α)
    (ps : List (κ × α)) : List.lookup k ((k, v) :: ps) = some v := by
  simp [List.lookup]

theorem lookup_cons_ne {κ α : Type} [BEq κ] [LawfulBEq κ] {k k0 : κ} (v : α)
    (ps : List (κ × α)) (h : k ≠ k0) :
    List.lookup k ((k0, v) :: ps) = List.lookup k ps := by
  have hb : (k == k0) = false := beq_eq_false_iff_ne.mpr h
  simp [List.lookup, hb]

theorem lookup_append_left {κ α : Type} [BEq κ] [LawfulBEq κ] (k : κ) (ps qs : List (κ × α))
    (h : (ps.lookup k).isSome) : (ps ++ qs).lookup k = ps.lookup k := by
  induction ps with
  | nil => simp at h
  | cons p rest ih =>
    obtain ⟨k0, v⟩ := p
    by_cases hk : k = k0
    · subst hk
      simp [lookup_cons_self]
    · rw [lookup_cons_ne v rest hk] at h
      simp only [List.cons_append, lookup_cons_ne _ _ hk]
      exact ih h

theorem lookup_append_right {κ α : Type} [BEq κ] [LawfulBEq κ] (k : κ) (ps qs : List (κ × α))
    (h : ps.lookup k = none) : (ps ++ qs).lookup k = qs.lookup k := by
  induction ps with
  | nil => simp
  | cons p rest ih =>
    obtain ⟨k0, v⟩ := p
    by_cases hk : k = k0
    · subst hk
      rw [lookup_cons_self] at h
      exact absurd h (by simp)
    · rw [lookup_cons_ne v rest hk] at h
      simp only [List.cons_append, lookup_cons_ne _ _ hk]
      exact ih h

theorem lookup_append_none {κ α : Type} [BEq κ] [LawfulBEq κ] {k : κ} {ps qs : List (κ × α)}
    (h : (ps ++ qs).lookup k = none) : ps.lookup k = none := by
  cases hl : ps.lookup k with
  | none => rfl
  | some v =>
    rw [lookup_append_left k ps qs (by simp [hl])] at h
    rw [hl] at h
    exact absurd h (by simp)

/-- `List.lookup` on the association list built by `zip`-ping the ascending
keys `range' s xs.length` with values `xs`. -/
theorem lookup_zip_range' {α : Type} (xs : List α) (s k : Nat) :
    ((List.range' s xs.length).zip xs).lookup k =
      if s ≤ k then xs[k - s]? else none := by
  induction xs generalizing s with
  | nil => simp
  | cons x rest ih =>
    simp only [List.length_cons]
    rw [List.range'_succ s rest.length 1]
    by_cases hk : k = s
    · subst hk
      simp [List.zip_cons_cons, lookup_cons_self]
    · rw [List.zip_cons_cons, lookup_cons_ne _ _ hk, ih (s + 1)]
      by_cases h1 : s ≤ k
      · have h2 : s + 1 ≤ k ∨ k = s := by omega
        rcases h2 with h2 | h2
        · rw [if_pos h2, if_pos h1]
          have h3 : k - s = (k - (s + 1)) + 1 := by omega
          rw [h3]
          simp
        · exact absurd h2 hk
      · rw [if_neg (by omega), if_neg h1]

theorem lookup_zip_range'_zero {α : Type} (xs : List α) (k : Nat) :
    ((List.range' 0 xs.length).zip xs).lookup k = xs[k]? := by
  rw [lookup_zip_range' xs 0 k, if_pos (Nat.zero_le k)]
  simp

/-! ## Image-level frame lemmas for block writes -/

theorem writeBytes_in_range (img p : List Nat) (off : Nat)
    (h : off + p.length ≤ img.length) :
    writeBytes img off p = img.take off ++ p ++ img.drop (off + p.length) := by
  unfold writeBytes
  have h0 : off - img.length = 0 := by omega
  simp [h0]

theorem writeBytes_length (img p : List Nat) (off : Nat)
    (h : off + p.length ≤ img.length) :
    (writeBytes img off p).length = img.length := by
  rw [writeBytes_in_range img p off h]
  simp
  omega

theorem writeBytes_same (img p : List Nat) (off : Nat)
    (h : off + p.length ≤ img.length) :
    ((writeBytes img off p).drop off).take p.length = p := by
  rw [writeBytes_in_range img p off h]
  have hA : (img.take off).length = off := by simp; omega
  have hdrop := List.drop_left (img.take off) (p ++ img.drop (off + p.length))
  rw [hA] at hdrop
  rw [List.append_assoc, hdrop, List.take_left]

theorem writeBytes_other (img p : List Nat) (n m bsz : Nat)
    (hp : p.length = bsz)
    (hlen : (n + 1) * bsz ≤ img.length)
    (hmn : m ≠ n) :
    ((writeBytes img (n * bsz) p).drop (m * bsz)).take bsz =
      (img.drop (m * bsz)).take bsz := by
  have hexp : (n + 1) * bsz = n * bsz + bsz := by ring
  have hlen2 : n * bsz + p.length ≤ img.length := by omega
  rw [writeBytes_in_range img p (n * bsz) hlen2]
  have hA : (img.take (n * bsz)).length = n * bsz := by simp; omega
  simp only [List.append_assoc]
  rw [List.drop_append_eq_append_drop, List.take_append_eq_append_take]
  rcases Nat.lt_or_ge m n with hlt | hge
  · -- the read block lies strictly before the written block
    have hmexp : (m + 1) * bsz = m * bsz + bsz := by ring
    have hmb : (m + 1) * bsz ≤ n * bsz := Nat.mul_le_mul_right bsz (by omega)
    have h2 : m * bsz - (img.take (n * bsz)).length = 0 := by rw [hA]; omega
    have h3 : ((img.take (n * bsz)).drop (m * bsz)).length = n * bsz - m * bsz := by
      simp [hA]
    have h4 : bsz - ((img.take (n * bsz)).drop (m * bsz)).length = 0 := by
      rw [h3]; omega
    rw [h2, h4, List.take_zero, List.append_nil]
    rw [List.drop_take, List.take_take]
    congr 1
    omega
  · -- the read block lies strictly after the written block
    have hmb : (n + 1) * bsz ≤ m * bsz := Nat.mul_le_mul_right bsz (by omega)
    have e1 : (img.take (n * bsz)).drop (m * bsz) = [] :=
      List.drop_eq_nil_of_le (by rw [hA]; omega)
    rw [e1]
    simp only [List.take_nil, List.nil_append, List.length_nil, Nat.sub_zero]
    rw [List.drop_append_eq_append_drop]
    have e2 : p.drop (m * bsz - (img.take (n * bsz)).length) = [] :=
      List.drop_eq_nil_of_le (by rw [hA, hp]; omega)
    rw [e2, List.nil_append]
    have e3 : (img.drop (n * bsz + p.length)).drop
        (m * bsz - (img.take (n * bsz)).length - p.length) = img.drop (m * bsz) := by
      rw [List.drop_drop]
      congr 1
      rw [hA, hp]
      omega
    rw [e3]

/-! ## VirtualDisk operation lemmas -/

theorem read_block_eq {d : VirtualDisk} {n : Nat} (hn : n < d.total_blocks) :
    d.read_block n = .ok (d.blockAt n) := by
  unfold VirtualDisk.read_block VirtualDisk.blockAt
  rw [if_pos hn]

theorem read_block_ok_elim {d : VirtualDisk} {n : Nat} {c : List Nat}
    (h : d.read_block n = .ok c) : n < d.total_blocks ∧ c = d.blockAt n := by
  unfold VirtualDisk.read_block at h
  by_cases hn : n < d.total_blocks
  · rw [if_pos hn] at h
    exact ⟨hn, (Except.ok.inj h).symm⟩
  · rw [if_neg hn] at h
    exact absurd h (by simp)

theorem blockAt_length {d : VirtualDisk} {n : Nat} (hwf : d.wf)
    (hn : n < d.total_blocks) : (d.blockAt n).length = d.block_size := by
  obtain ⟨hbs, hsz⟩ := hwf
  have h1 : (n + 1) * d.block_size ≤ d.total_blocks * d.block_size :=
    Nat.mul_le_mul_right _ (by omega)
  have h2 : (n + 1) * d.block_size = n * d.block_size + d.block_size := by ring
  simp [VirtualDisk.blockAt]
  omega

theorem wf_of_geomEq {d d' : VirtualDisk} (hg : d.geomEq d') (hwf : d.wf) : d'.wf := by
  obtain ⟨h1, h2, h3, h4⟩ := hg
  unfold VirtualDisk.wf at *
  rw [h2, h3, h4]
  exact hwf

theorem geomEq_refl (d : VirtualDisk) : d.geomEq d := ⟨rfl, rfl, rfl, rfl⟩

theorem geomEq_trans {a b c : VirtualDisk} (h1 : a.geomEq b) (h2 : b.geomEq c) :
    a.geomEq c := by
  obtain ⟨x1, x2, x3, x4⟩ := h1
  obtain ⟨y1, y2, y3, y4⟩ := h2
  exact ⟨y1.trans x1, y2.trans x2, y3.trans x3, y4.trans x4⟩

theorem write_block_eq_ok {d : VirtualDisk} {n : Nat} {data : List Nat}
    (hn : n < d.total_blocks) (hd : data.length ≤ d.block_size) :
    d.write_block n data = .ok { d with
      image := writeBytes d.image (n * d.block_size)
        (data ++ List.replicate (d.block_size - data.length) 0) } := by
  unfold VirtualDisk.write_block
  rw [if_pos hn, if_neg (by omega)]

theorem write_block_ok_elim {d : VirtualDisk} {n : Nat} {data : List Nat} {d' : VirtualDisk}
    (hwf : d.wf) (h : d.write_block n data = .ok d') :
    n < d.total_blocks ∧ data.length ≤ d.block_size ∧ d.geomEq d' ∧
      d'.blockAt n = data ++ List.replicate (d.block_size - data.length) 0 ∧
      (∀ m, m ≠ n → d'.blockAt m = d.blockAt m) := by
  obtain ⟨hbs, hsz⟩ := hwf
  unfold VirtualDisk.write_block at h
  by_cases hn : n < d.total_blocks
  swap
  · rw [if_neg hn] at h
    exact absurd h (by simp)
  rw [if_pos hn] at h
  by_cases hd : data.length > d.block_size
  · rw [if_pos hd] at h
    exact absurd h (by simp)
  rw [if_neg hd] at h
  simp only [] at h
  have hd' : data.length ≤ d.block_size := by omega
  set padded := data ++ List.replicate (d.block_size - data.length) 0 with hpad
  have hplen : padded.length = d.block_size := by
    rw [hpad]
    simp
    omega
  have hrange : n * d.block_size + padded.length ≤ d.image.length := by
    have h1 : (n + 1) * d.block_size ≤ d.total_blocks * d.block_size :=
      Nat.mul_le_mul_right _ (by omega)
    have h2 : (n + 1) * d.block_size = n * d.block_size + d.block_size := by ring
    omega
  obtain rfl : { d with image := writeBytes d.image (n * d.block_size) padded } = d' :=
    Except.ok.inj h
  refine ⟨hn, hd', ⟨rfl, rfl, rfl, ?_⟩, ?_, ?_⟩
  · exact writeBytes_length _ _ _ hrange
  · show ((writeBytes d.image (n * d.block_size) padded).drop (n * d.block_size)).take
        d.block_size = padded
    have hsame := writeBytes_same d.image padded (n * d.block_size) hrange
    rw [hplen] at hsame
    exact hsame
  · intro m hm
    show ((writeBytes d.image (n * d.block_size) padded).drop (m * d.block_size)).take
        d.block_size = (d.image.drop (m * d.block_size)).take d.block_size
    have h1 : (n + 1) * d.block_size ≤ d.total_blocks * d.block_size :=
      Nat.mul_le_mul_right _ (by omega)
    exact writeBytes_other d.image padded n m d.block_size hplen (by omega) hm

theorem bitmapByte_eq_blockAt (d : VirtualDisk) (n : Nat) :
    d.bitmapByte n = (d.blockAt 0)[n]? := by
  simp [VirtualDisk.bitmapByte, VirtualDisk.blockAt]

theorem mark_block_used_ok_elim {d : VirtualDisk} {n : Nat} {d' : VirtualDisk}
    (hwf : d.wf) (h : d.mark_block_used n = .ok d') :
    0 < d.total_blocks ∧ n < d.block_size ∧ d.geomEq d' ∧
      d'.blockAt 0 = (d.blockAt 0).set n 1 ∧
      (∀ m, m ≠ 0 → d'.blockAt m = d.blockAt m) := by
  unfold VirtualDisk.mark_block_used at h
  split at h
  · exact absurd h (fun hh => Except.noConfusion hh)
  next bitmap hr =>
    obtain ⟨h0, hbm⟩ := read_block_ok_elim hr
    subst hbm
    have hlenb : (d.blockAt 0).length = d.block_size := blockAt_length hwf h0
    split at h
    swap
    · exact absurd h (fun hh => Except.noConfusion hh)
    next hn =>
      obtain ⟨-, -, hg, hsame, hother⟩ := write_block_ok_elim hwf h
      refine ⟨h0, by omega, hg, ?_, hother⟩
      rw [hsame]
      have hz : d.block_size - ((d.blockAt 0).set n 1).length = 0 := by
        simp [hlenb]
      rw [hz]
      simp

theorem mark_block_used_intro {d : VirtualDisk} {n : Nat}
    (hwf : d.wf) (h0 : 0 < d.total_blocks) (hn : n < d.block_size) :
    ∃ d', d.mark_block_used n = .ok d' := by
  unfold VirtualDisk.mark_block_used
  rw [read_block_eq h0]
  have hlenb : (d.blockAt 0).length = d.block_size := blockAt_length hwf h0
  simp only []
  rw [if_pos (by omega)]
  rw [write_block_eq_ok h0 (by simp [hlenb])]
  exact ⟨_, rfl⟩

theorem mark_block_free_ok_elim {d : VirtualDisk} {n : Nat} {d' : VirtualDisk}
    (hwf : d.wf) (h : d.mark_block_free n = .ok d') :
    0 < d.total_blocks ∧ n < d.block_size ∧ d.geomEq d' ∧
      d'.blockAt 0 = (d.blockAt 0).set n 0 ∧
      (∀ m, m ≠ 0 → d'.blockAt m = d.blockAt m) := by
  unfold VirtualDisk.mark_block_free at h
  split at h
  · exact absurd h (fun hh => Except.noConfusion hh)
  next bitmap hr =>
    obtain ⟨h0, hbm⟩ := read_block_ok_elim hr
    subst hbm
    have hlenb : (d.blockAt 0).length = d.block_size := blockAt_length hwf h0
    split at h
    swap
    · exact absurd h (fun hh => Except.noConfusion hh)
    next hn =>
      obtain ⟨-, -, hg, hsame, hother⟩ := write_block_ok_elim hwf h
      refine ⟨h0, by omega, hg, ?_, hother⟩
      rw [hsame]
      have hz : d.block_size - ((d.blockAt 0).set n 0).length = 0 := by
        simp [hlenb]
      rw [hz]
      simp

theorem mark_block_free_intro {d : VirtualDisk} {n : Nat}
    (hwf : d.wf) (h0 : 0 < d.total_blocks) (hn : n < d.block_size) :
    ∃ d', d.mark_block_free n = .ok d' := by
  unfold VirtualDisk.mark_block_free
  rw [read_block_eq h0]
  have hlenb : (d.blockAt 0).length = d.block_size := blockAt_length hwf h0
  simp only []
  rw [if_pos (by omega)]
  rw [write_block_eq_ok h0 (by simp [hlenb])]
  exact ⟨_, rfl⟩

/-- After `mark_block_used n`, bitmap byte `n` reads 1. -/
theorem bitmapByte_after_mark_used_self {d d' : VirtualDisk} {n : Nat}
    (hwf : d.wf) (h : d.mark_block_used n = .ok d') :
    d'.bitmapByte n = some 1 := by
  obtain ⟨h0, hn, hg, hsame, -⟩ := mark_block_used_ok_elim hwf h
  rw [bitmapByte_eq_blockAt, hsame]
  have hlenb : (d.blockAt 0).length = d.block_size := blockAt_length hwf h0
  rw [List.getElem?_set_self (by omega)]

/-- After `mark_block_used n`, every other bitmap byte is unchanged. -/
theorem bitmapByte_after_mark_used_other {d d' : VirtualDisk} {n m : Nat}
    (hwf : d.wf) (h : d.mark_block_used n = .ok d') (hm : m ≠ n) :
    d'.bitmapByte m = d.bitmapByte m := by
  obtain ⟨h0, hn, hg, hsame, -⟩ := mark_block_used_ok_elim hwf h
  rw [bitmapByte_eq_blockAt, bitmapByte_eq_blockAt, hsame]
  exact List.getElem?_set_ne hm.symm

theorem scanFree_some_elim {bitmap : List Nat} {ns : List Nat} {b : Nat}
    (h : VirtualDisk.scanFree bitmap ns = .ok (some b)) :
    b ∈ ns ∧ bitmap[b]? = some 0 := by
  induction ns with
  | nil =>
    rw [VirtualDisk.scanFree] at h
    exact absurd (Except.ok.inj h) (by simp)
  | cons blockNum rest ih =>
    rw [VirtualDisk.scanFree] at h
    cases hb : bitmap[blockNum]? with
    | none => rw [hb] at h; exact absurd h (fun hh => Except.noConfusion hh)
    | some v =>
      rw [hb] at h
      simp only [] at h
      by_cases hv : v = 0
      · rw [if_pos hv] at h
        obtain rfl : blockNum = b := Option.some.inj (Except.ok.inj h)
        subst hv
        exact ⟨List.mem_cons_self _ _, hb⟩
      · rw [if_neg hv] at h
        obtain ⟨hmem, hfree⟩ := ih h
        exact ⟨List.mem_cons_of_mem _ hmem, hfree⟩

theorem get_free_block_some_elim {d : VirtualDisk} {b : Nat}
    (h : d.get_free_block = .ok (some b)) :
    1 ≤ b ∧ b < d.total_blocks ∧ d.bitmapByte b = some 0 := by
  unfold VirtualDisk.get_free_block at h
  split at h
  · exact absurd h (fun hh => Except.noConfusion hh)
  next bitmap hr =>
    obtain ⟨h0, hbm⟩ := read_block_ok_elim hr
    subst hbm
    obtain ⟨hmem, hfree⟩ := scanFree_some_elim h
    rw [List.mem_range'_1] at hmem
    rw [bitmapByte_eq_blockAt]
    exact ⟨hmem.1, by omega, hfree⟩

/-! ## Inode-table (dict) lemmas -/

theorem lookup_dictInsert_self (tbl : List (String × Inode)) (k : String) (v : Inode) :
    (FileSystem.dictInsert tbl k v).lookup k = some v := by
  induction tbl with
  | nil => simp [FileSystem.dictInsert, lookup_cons_self]
  | cons p rest ih =>
    obtain ⟨k0, v0⟩ := p
    unfold FileSystem.dictInsert
    by_cases hk : k0 = k
    · rw [if_pos hk]
      exact lookup_cons_self k v rest
    · rw [if_neg hk]
      rw [lookup_cons_ne v0 _ (fun hh => hk hh.symm)]
      exact ih

theorem lookup_dictInsert_ne (tbl : List (String × Inode)) (k k' : String) (v : Inode)
    (h : k' ≠ k) : (FileSystem.dictInsert tbl k v).lookup k' = tbl.lookup k' := by
  induction tbl with
  | nil => simp [FileSystem.dictInsert, lookup_cons_ne v [] h]
  | cons p rest ih =>
    obtain ⟨k0, v0⟩ := p
    unfold FileSystem.dictInsert
    by_cases hk : k0 = k
    · subst hk
      rw [if_pos rfl]
      rw [lookup_cons_ne v rest h, lookup_cons_ne v0 rest h]
    · rw [if_neg hk]
      by_cases hk' : k' = k0
      · subst hk'
        rw [lookup_cons_self, lookup_cons_self]
      · rw [lookup_cons_ne v0 _ hk', lookup_cons_ne v0 _ hk']
        exact ih

theorem dictInsert_self (tbl : List (String × Inode)) (k : String) (v : Inode)
    (h : tbl.lookup k = some v) : FileSystem.dictInsert tbl k v = tbl := by
  induction tbl with
  | nil => simp at h
  | cons p rest ih =>
    obtain ⟨k0, v0⟩ := p
    unfold FileSystem.dictInsert
    by_cases hk : k0 = k
    · subst hk
      rw [lookup_cons_self] at h
      rw [if_pos rfl, Option.some.inj h]
    · rw [if_neg hk]
      rw [lookup_cons_ne v0 _ (fun hh => hk hh.symm)] at h
      rw [ih h]

/-! ## save_inode_table and create_file lemmas -/

theorem save_ok_elim {fs fs' : FileSystem} (hwf : fs.disk.wf)
    (hitb : fs.inode_table_block = 1) (h : fs.save_inode_table = .ok fs') :
    fs'.inodes = fs.inodes ∧ fs'.inode_table_block = fs.inode_table_block ∧
      fs.disk.geomEq fs'.disk ∧
      fs'.disk.bitmapByte 1 = some 1 ∧
      (∀ m, m ≠ 1 → fs'.disk.bitmapByte m = fs.disk.bitmapByte m) ∧
      (∀ m, m ≠ 0 → m ≠ 1 → fs'.disk.blockAt m = fs.disk.blockAt m) := by
  unfold FileSystem.save_inode_table at h
  rw [hitb] at h
  split at h
  · exact absurd h (fun hh => Except.noConfusion hh)
  next diskA hw =>
    obtain ⟨htb1, hcap, hgA, hbA, hoA⟩ := write_block_ok_elim hwf hw
    have hwfA : diskA.wf := wf_of_geomEq hgA hwf
    split at h
    · exact absurd h (fun hh => Except.noConfusion hh)
    next diskB hm =>
      have hfs' := Except.ok.inj h
      subst hfs'
      obtain ⟨h0A, hnA, hgB, hbB, hoB⟩ := mark_block_used_ok_elim hwfA hm
      refine ⟨rfl, hitb.symm, geomEq_trans hgA hgB, ?_, ?_, ?_⟩
      · exact bitmapByte_after_mark_used_self hwfA hm
      · intro m hm1
        have h1 : diskB.bitmapByte m = diskA.bitmapByte m :=
          bitmapByte_after_mark_used_other hwfA hm hm1
        rw [h1, bitmapByte_eq_blockAt, bitmapByte_eq_blockAt, hoA 0 (by omega)]
      · intro m hm0 hm1
        rw [hoB m hm0, hoA m hm1]

theorem save_ok_intro {fs : FileSystem} (hwf : fs.disk.wf)
    (hitb : fs.inode_table_block = 1) (htb : 1 < fs.disk.total_blocks)
    (hbs : 1 < fs.disk.block_size)
    (hcap : (strToBytes (jsonDumps fs.inodes)).length ≤ fs.disk.block_size) :
    ∃ fs', fs.save_inode_table = .ok fs' := by
  have hw := @write_block_eq_ok fs.disk 1 (strToBytes (jsonDumps fs.inodes)) htb hcap
  obtain ⟨-, -, hgA, -, -⟩ := write_block_ok_elim hwf hw
  have hwfA := wf_of_geomEq hgA hwf
  obtain ⟨diskB, hm⟩ := mark_block_used_intro hwfA
    (show 0 < fs.disk.total_blocks by omega)
    (show (1 : Nat) < fs.disk.block_size by omega)
  refine ⟨{ fs with disk := diskB }, ?_⟩
  unfold FileSystem.save_inode_table
  rw [hitb]
  split
  next e heq =>
    rw [hw] at heq
    exact absurd heq (fun hh => Except.noConfusion hh)
  next dA heq =>
    rw [hw] at heq
    have hdA := Except.ok.inj heq
    subst hdA
    split
    next e heq2 =>
      rw [hm] at heq2
      exact absurd heq2 (fun hh => Except.noConfusion hh)
    next dB heq2 =>
      rw [hm] at heq2
      have hdB := Except.ok.inj heq2
      subst hdB
      rfl

theorem create_ok_elim {fs : FileSystem} {name : String} {now : Nat} {fs1 : FileSystem}
    (hwf : fs.disk.wf) (hitb : fs.inode_table_block = 1)
    (h : fs.create_file name now = .ok (true, fs1)) :
    fs.inodes.lookup name = none ∧
      fs1.inodes = FileSystem.dictInsert fs.inodes name (Inode.new name now) ∧
      fs1.inode_table_block = fs.inode_table_block ∧
      fs.disk.geomEq fs1.disk ∧
      fs1.disk.bitmapByte 1 = some 1 ∧
      (∀ m, m ≠ 1 → fs1.disk.bitmapByte m = fs.disk.bitmapByte m) ∧
      (∀ m, m ≠ 0 → m ≠ 1 → fs1.disk.blockAt m = fs.disk.blockAt m) := by
  unfold FileSystem.create_file at h
  split at h
  · exact absurd (Prod.mk.inj (Except.ok.inj h)).1 (by simp)
  next hnone =>
    have hlk : fs.inodes.lookup name = none := by
      cases hl : fs.inodes.lookup name
      · rfl
      · rw [hl] at hnone
        exact absurd rfl hnone
    split at h
    · exact absurd h (fun hh => Except.noConfusion hh)
    next fs2 hsave =>
      obtain rfl : fs2 = fs1 := (Prod.mk.inj (Except.ok.inj h)).2
      have hs := @save_ok_elim { fs with
        inodes := FileSystem.dictInsert fs.inodes name (Inode.new name now) } fs2
        hwf hitb hsave
      obtain ⟨hi, hit, hg, hb1, hbo, hblk⟩ := hs
      exact ⟨hlk, hi, hit, hg, hb1, hbo, hblk⟩

/-! ## Allocation lemmas -/

theorem allocate_ok_elim {fs : FileSystem} {b : Nat}
    (h : fs.allocate_new_block = .ok b) : fs.disk.get_free_block = .ok (some b) := by
  unfold FileSystem.allocate_new_block at h
  split at h
  · exact absurd h (fun hh => Except.noConfusion hh)
  · exact absurd h (fun hh => Except.noConfusion hh)
  next b' heq =>
    rw [heq]
    rw [Except.ok.inj h]

/-- Full inversion of the allocation loop of `_ensure_blocks_allocated`: the
in-memory table and the data blocks are untouched (only the bitmap block
changes), used bitmap bytes stay used, and the mapping grows by exactly one
fresh pair per needed logical block that was absent, each fresh physical block
being in `[1, total_blocks)`, free beforehand, used afterwards, and pairwise
distinct. -/
theorem ensureLoop_ok_elim {ns : List Nat} {fs : FileSystem} {mapping : List (Nat × Nat)}
    {m1 : List (Nat × Nat)} {fs1 : FileSystem}
    (hwf : fs.disk.wf) (hnd : ns.Nodup)
    (h : FileSystem.ensureLoop fs mapping ns = .ok (m1, fs1)) :
    fs1.inodes = fs.inodes ∧ fs1.inode_table_block = fs.inode_table_block ∧
      fs.disk.geomEq fs1.disk ∧
      (∀ m, m ≠ 0 → fs1.disk.blockAt m = fs.disk.blockAt m) ∧
      (∀ n, fs.disk.bitmapByte n = some 1 → fs1.disk.bitmapByte n = some 1) ∧
      ∃ newPairs,
        m1 = mapping ++ newPairs ∧
        m1.map Prod.fst =
          mapping.map Prod.fst ++ ns.filter (fun l => (mapping.lookup l).isNone) ∧
        (newPairs.map Prod.snd).Nodup ∧
        (∀ p ∈ newPairs, p.1 ∈ ns ∧ mapping.lookup p.1 = none ∧
          1 ≤ p.2 ∧ p.2 < fs.disk.total_blocks ∧
          fs.disk.bitmapByte p.2 = some 0 ∧ fs1.disk.bitmapByte p.2 = some 1) := by
  induction ns generalizing fs mapping with
  | nil =>
    unfold FileSystem.ensureLoop at h
    obtain ⟨h1, h2⟩ := Prod.mk.inj (Except.ok.inj h)
    subst h1
    subst h2
    refine ⟨rfl, rfl, geomEq_refl _, fun m _ => rfl, fun n hn => hn, [], by simp, by simp, by simp, by simp⟩
  | cons l rest ih =>
    unfold FileSystem.ensureLoop at h
    split at h
    · -- the logical block is already mapped
      next hsome =>
      obtain ⟨hi, hit, hg, hfr, hmono, newPairs, hm1, hkeys, hnodup, hprops⟩ :=
        ih hwf hnd.of_cons h
      refine ⟨hi, hit, hg, hfr, hmono, newPairs, hm1, ?_, hnodup, ?_⟩
      · rw [hkeys]
        have : (l :: rest).filter (fun x => (mapping.lookup x).isNone) =
            rest.filter (fun x => (mapping.lookup x).isNone) := by
          rw [List.filter_cons_of_neg]
          simpa using hsome
        rw [this]
      · intro p hp
        obtain ⟨q1, q2, q3, q4, q5, q6⟩ := hprops p hp
        exact ⟨List.mem_cons_of_mem _ q1, q2, q3, q4, q5, q6⟩
    · -- allocate a fresh physical block for this logical block
      next hnone =>
      have hlnone : mapping.lookup l = none := by
        cases hl : mapping.lookup l
        · rfl
        · rw [hl] at hnone; exact absurd rfl hnone
      split at h
      · exact absurd h (fun hh => Except.noConfusion hh)
      next nb ha =>
        split at h
        · exact absurd h (fun hh => Except.noConfusion hh)
        next diskA hm =>
          have hfree := get_free_block_some_elim (allocate_ok_elim ha)
          obtain ⟨hnb1, hnbtb, hnbfree⟩ := hfree
          obtain ⟨h0, hnbs, hgA, hsetA, hoA⟩ := mark_block_used_ok_elim hwf hm
          have hbnb1 : diskA.bitmapByte nb = some 1 :=
            bitmapByte_after_mark_used_self hwf hm
          have hwfA : diskA.wf := wf_of_geomEq hgA hwf
          obtain ⟨hi, hit, hg, hfr, hmono, newPairs, hm1, hkeys, hnodup, hprops⟩ :=
            ih hwfA hnd.of_cons h
          have hlnotrest : l ∉ rest := (List.nodup_cons.mp hnd).1
          refine ⟨hi, hit, geomEq_trans hgA hg, ?_, ?_, (l, nb) :: newPairs, ?_, ?_, ?_, ?_⟩
          · intro m hm0
            rw [hfr m hm0]
            exact hoA m hm0
          · intro n hn
            by_cases hne : n = nb
            · subst hne
              exact hmono n hbnb1
            · apply hmono
              rw [bitmapByte_after_mark_used_other hwf hm hne]
              exact hn
          · rw [hm1, List.append_assoc, List.singleton_append]
          · rw [hkeys]
            have hfc : (l :: rest).filter (fun x => (mapping.lookup x).isNone) =
                l :: rest.filter (fun x => (mapping.lookup x).isNone) := by
              rw [List.filter_cons_of_pos]
              simp [hlnone]
            rw [hfc]
            have hcong : rest.filter (fun x => ((mapping ++ [(l, nb)]).lookup x).isNone) =
                rest.filter (fun x => (mapping.lookup x).isNone) := by
              apply List.filter_congr
              intro x hx
              have hxl : x ≠ l := fun hh => hlnotrest (hh ▸ hx)
              have hlkeq : (mapping ++ [(l, nb)]).lookup x = mapping.lookup x := by
                cases hlx : mapping.lookup x with
                | some v =>
                  rw [lookup_append_left x mapping _ (by simp [hlx])]
                  exact hlx
                | none =>
                  rw [lookup_append_right x mapping _ hlx, lookup_cons_ne _ _ hxl]
                  simp
              simp only [hlkeq]
            rw [hcong]
            simp
          · rw [List.map_cons]
            rw [List.nodup_cons]
            refine ⟨?_, hnodup⟩
            intro hmem
            obtain ⟨p, hp, hpeq⟩ := List.mem_map.mp hmem
            obtain ⟨-, -, -, -, q5, -⟩ := hprops p hp
            rw [hpeq] at q5
            rw [show ({ fs with disk := diskA } : FileSystem).disk = diskA from rfl] at q5
            rw [hbnb1] at q5
            exact absurd (Option.some.inj q5) (by omega)
          · intro p hp
            rcases List.mem_cons.mp hp with hpl | hprest
            · subst hpl
              refine ⟨List.mem_cons_self l rest, hlnone, hnb1, hnbtb, hnbfree, ?_⟩
              exact hmono nb hbnb1
            · obtain ⟨q1, q2, q3, q4, q5, q6⟩ := hprops p hprest
              have hq2 : mapping.lookup p.1 = none := lookup_append_none q2
              have hp2nb : p.2 ≠ nb := by
                intro hh
                rw [show ({ fs with disk := diskA } : FileSystem).disk = diskA from rfl] at q5
                rw [hh, hbnb1] at q5
                exact absurd (Option.some.inj q5) (by omega)
              refine ⟨List.mem_cons_of_mem _ q1, hq2, q3, ?_, ?_, q6⟩
              · have : diskA.total_blocks = fs.disk.total_blocks := hgA.2.2.1
                rw [show ({ fs with disk := diskA } : FileSystem).disk = diskA from rfl] at q4
                omega
              · rw [show ({ fs with disk := diskA } : FileSystem).disk = diskA from rfl] at q5
                rw [← bitmapByte_after_mark_used_other hwf hm hp2nb]
                exact q5

/-! ## Write-loop lemmas -/

theorem spliceAt_zero (buf repl : List Nat) :
    spliceAt buf 0 repl = repl ++ buf.drop repl.length := by
  simp [spliceAt]

/-- Inversion of `_write_data_to_blocks`' loop for a block-aligned position
(the only positions an offset-0 write visits): on success, each logical block
`j` from the current one on holds the matching slice of `data` followed by the
tail of its previous content, and every block not mapped from the remaining
range is untouched. -/
theorem writeLoop_zero_ok_elim {data : List Nat} {mapping : List (Nat × Nat)} {bs : Nat}
    {fs' : FileSystem} :
    ∀ (fuel : Nat) (fs : FileSystem) (j0 : Nat),
    fs.disk.wf → fs.disk.block_size = bs →
    data.length - j0 * bs ≤ fuel →
    (∀ j, j0 ≤ j → j * bs < data.length → (mapping.lookup j).isSome) →
    (∀ j j' bj bj', mapping.lookup j = some bj → mapping.lookup j' = some bj' →
      j ≠ j' → bj ≠ bj') →
    FileSystem.writeLoop data mapping fuel fs (j0 * bs) (j0 * bs) = .ok fs' →
    fs'.inodes = fs.inodes ∧ fs'.inode_table_block = fs.inode_table_block ∧
      fs.disk.geomEq fs'.disk ∧
      (∀ j bj, j0 ≤ j → j * bs < data.length → mapping.lookup j = some bj →
        fs'.disk.blockAt bj =
          (data.drop (j * bs)).take bs ++
            (fs.disk.blockAt bj).drop (data.length - j * bs)) ∧
      (∀ m, (∀ j bj, j0 ≤ j → j * bs < data.length →
          mapping.lookup j = some bj → m ≠ bj) →
        fs'.disk.blockAt m = fs.disk.blockAt m) := by
  intro fuel
  induction fuel with
  | zero =>
    intro fs j0 hwf hbseq hfuel hcov hinj h
    rw [FileSystem.writeLoop] at h
    obtain rfl : fs = fs' := Except.ok.inj h
    refine ⟨rfl, rfl, geomEq_refl _, ?_, fun m _ => rfl⟩
    intro j bj hj0 hjlt hlk
    have : j0 * bs ≤ j * bs := Nat.mul_le_mul_right bs hj0
    omega
  | succ fuel ih =>
    intro fs j0 hwf hbseq hfuel hcov hinj h
    have hbs : 0 < bs := hbseq ▸ hwf.1
    rw [FileSystem.writeLoop] at h
    by_cases hlt : j0 * bs < data.length
    swap
    · -- the loop body never runs
      rw [if_neg hlt] at h
      obtain rfl : fs = fs' := Except.ok.inj h
      refine ⟨rfl, rfl, geomEq_refl _, ?_, fun m _ => rfl⟩
      intro j bj hj0 hjlt hlk
      have : j0 * bs ≤ j * bs := Nat.mul_le_mul_right bs hj0
      omega
    · rw [if_pos hlt, if_neg (by omega : ¬ fs.disk.block_size = 0)] at h
      rw [hbseq] at h
      rw [Nat.mul_div_cancel j0 hbs, Nat.mul_mod_left j0 bs] at h
      simp only [Nat.sub_zero] at h
      split at h
      · next hlk0 =>
          have hc := hcov j0 (le_refl _) hlt
          rw [hlk0] at hc
          simp at hc
      next b0 hlk0 =>
        split at h
        · exact absurd h (fun hh => Except.noConfusion hh)
        next current hr =>
          obtain ⟨hb0tb, hcur⟩ := read_block_ok_elim hr
          subst hcur
          have hcurlen : (fs.disk.blockAt b0).length = bs := by
            rw [blockAt_length hwf hb0tb, hbseq]
          split at h
          · exact absurd h (fun hh => Except.noConfusion hh)
          next diskA hwr =>
            rw [spliceAt_zero] at hwr
            have hdroplen : (data.drop (j0 * bs)).length = data.length - j0 * bs := by
              simp
            have hchunklen :
                ((data.drop (j0 * bs)).take (min bs (data.length - j0 * bs))).length =
                  min bs (data.length - j0 * bs) := by
              simp only [List.length_take, List.length_drop]
              omega
            obtain ⟨-, -, hgA, hsetA, hoA⟩ := write_block_ok_elim hwf hwr
            have hpayloadlen :
                ((data.drop (j0 * bs)).take (min bs (data.length - j0 * bs)) ++
                  (fs.disk.blockAt b0).drop
                    (((data.drop (j0 * bs)).take (min bs (data.length - j0 * bs))).length)).length
                  = bs := by
              simp only [List.length_append, List.length_drop, hchunklen, hcurlen]
              omega
            have hAb0 : diskA.blockAt b0 =
                (data.drop (j0 * bs)).take (min bs (data.length - j0 * bs)) ++
                  (fs.disk.blockAt b0).drop (min bs (data.length - j0 * bs)) := by
              rw [hsetA]
              rw [show fs.disk.block_size -
                  ((data.drop (j0 * bs)).take (min bs (data.length - j0 * bs)) ++
                    (fs.disk.blockAt b0).drop
                      (((data.drop (j0 * bs)).take (min bs (data.length - j0 * bs))).length)).length
                  = 0 by rw [hpayloadlen]; omega]
              rw [List.replicate_zero, List.append_nil, hchunklen]
            by_cases hlast : data.length - j0 * bs ≤ bs
            · -- the final (possibly partial) chunk: the loop exits next round
              have harg : j0 * bs + min bs (data.length - j0 * bs) = data.length := by
                omega
              rw [harg] at h
              cases fuel with
              | zero =>
                rw [FileSystem.writeLoop] at h
                obtain rfl : { fs with disk := diskA } = fs' := Except.ok.inj h
                refine ⟨rfl, rfl, hgA, ?_, ?_⟩
                · intro j bj hj0 hjlt hlkj
                  have hj : j = j0 := by
                    by_contra hne
                    have h1 : j0 + 1 ≤ j := by omega
                    have h2 : (j0 + 1) * bs ≤ j * bs := Nat.mul_le_mul_right bs h1
                    have h3 : (j0 + 1) * bs = j0 * bs + bs := by ring
                    omega
                  rw [hj] at hlkj ⊢
                  rw [hlk0] at hlkj
                  obtain rfl : b0 = bj := Option.some.inj hlkj
                  show diskA.blockAt b0 = _
                  rw [hAb0]
                  have hmin : min bs (data.length - j0 * bs) = data.length - j0 * bs := by
                    omega
                  rw [hmin]
                  congr 1
                  rw [List.take_of_length_le (by omega), List.take_of_length_le (by omega)]
                · intro m havoid
                  have hmb0 : m ≠ b0 := havoid j0 b0 (le_refl _) hlt hlk0
                  exact hoA m hmb0
              | succ fuel2 =>
                rw [FileSystem.writeLoop] at h
                rw [if_neg (by omega : ¬ data.length < data.length)] at h
                obtain rfl : { fs with disk := diskA } = fs' := Except.ok.inj h
                refine ⟨rfl, rfl, hgA, ?_, ?_⟩
                · intro j bj hj0 hjlt hlkj
                  have hj : j = j0 := by
                    by_contra hne
                    have h1 : j0 + 1 ≤ j := by omega
                    have h2 : (j0 + 1) * bs ≤ j * bs := Nat.mul_le_mul_right bs h1
                    have h3 : (j0 + 1) * bs = j0 * bs + bs := by ring
                    omega
                  rw [hj] at hlkj ⊢
                  rw [hlk0] at hlkj
                  obtain rfl : b0 = bj := Option.some.inj hlkj
                  show diskA.blockAt b0 = _
                  rw [hAb0]
                  have hmin : min bs (data.length - j0 * bs) = data.length - j0 * bs := by
                    omega
                  rw [hmin]
                  congr 1
                  rw [List.take_of_length_le (by omega), List.take_of_length_le (by omega)]
                · intro m havoid
                  have hmb0 : m ≠ b0 := havoid j0 b0 (le_refl _) hlt hlk0
                  exact hoA m hmb0
            · -- a full chunk: recurse at the next block-aligned position
              have hmin : min bs (data.length - j0 * bs) = bs := by omega
              have harg : j0 * bs + min bs (data.length - j0 * bs) = (j0 + 1) * bs := by
                have : (j0 + 1) * bs = j0 * bs + bs := by ring
                omega
              rw [harg] at h
              have hwfA : ({ fs with disk := diskA } : FileSystem).disk.wf :=
                wf_of_geomEq hgA hwf
              have hbseqA : ({ fs with disk := diskA } : FileSystem).disk.block_size = bs := by
                have := hgA.2.1
                show diskA.block_size = bs
                omega
              have hfuelA : data.length - (j0 + 1) * bs ≤ fuel := by
                have : (j0 + 1) * bs = j0 * bs + bs := by ring
                omega
              have hcovA : ∀ j, j0 + 1 ≤ j → j * bs < data.length →
                  (mapping.lookup j).isSome := fun j hj hjl => hcov j (by omega) hjl
              obtain ⟨ih1, ih2, ih3, ihw2, ihw3⟩ :=
                ih { fs with disk := diskA } (j0 + 1) hwfA hbseqA hfuelA hcovA hinj h
              refine ⟨ih1, ih2, geomEq_trans hgA ih3, ?_, ?_⟩
              · intro j bj hj0 hjlt hlkj
                by_cases hjj0 : j = j0
                · rw [hjj0] at hlkj ⊢
                  rw [hlk0] at hlkj
                  obtain rfl : b0 = bj := Option.some.inj hlkj
                  have havoid : ∀ j' bj', j0 + 1 ≤ j' → j' * bs < data.length →
                      mapping.lookup j' = some bj' → b0 ≠ bj' := by
                    intro j' bj' hj' hjl' hlk'
                    exact hinj j0 j' b0 bj' hlk0 hlk' (by omega)
                  rw [ihw3 b0 havoid]
                  show diskA.blockAt b0 = _
                  rw [hAb0, hmin]
                  congr 1
                  rw [List.drop_eq_nil_of_le (by omega),
                    List.drop_eq_nil_of_le (by omega)]
                · have hj1 : j0 + 1 ≤ j := by omega
                  have := ihw2 j bj hj1 hjlt hlkj
                  rw [this]
                  have hbjb0 : bj ≠ b0 := hinj j j0 bj b0 hlkj hlk0 hjj0
                  show _ = (data.drop (j * bs)).take bs ++
                    (fs.disk.blockAt bj).drop (data.length - j * bs)
                  rw [show ({ fs with disk := diskA } : FileSystem).disk.blockAt bj
                      = diskA.blockAt bj from rfl]
                  rw [hoA bj hbjb0]
              · intro m havoid
                have hsub : ∀ j bj, j0 + 1 ≤ j → j * bs < data.length →
                    mapping.lookup j = some bj → m ≠ bj :=
                  fun j bj hj hjl hlk => havoid j bj (by omega) hjl hlk
                rw [ihw3 m hsub]
                exact hoA m (havoid j0 b0 (le_refl _) hlt hlk0)

/-! ## Read-loop lemmas -/

/-- The accumulation loop of `read_file`, fully characterized: given the
content of every block in the list (each a full `block_size` bytes), the loop
returns the accumulator extended by the concatenation of the contents,
truncated so the total never exceeds `size`. -/
theorem readLoop_ok {fs : FileSystem} {size : Nat} {pblocks : List Nat} {cs : List (List Nat)}
    (hbs : 0 < fs.disk.block_size)
    (hread : List.Forall₂
      (fun pb c => fs.disk.read_block pb = .ok c ∧ c.length = fs.disk.block_size)
      pblocks cs) :
    ∀ acc, FileSystem.readLoop fs size acc pblocks =
      .ok (acc ++ cs.flatten.take (size - acc.length)) := by
  induction hread with
  | nil =>
    intro acc
    simp [FileSystem.readLoop]
  | @cons pb c pbs cs hpc hrest ih =>
    intro acc
    obtain ⟨hrd, hlen⟩ := hpc
    unfold FileSystem.readLoop
    rw [show fs.disk.get_block_size = fs.disk.block_size from rfl]
    split
    next e heq =>
      rw [hrd] at heq
      exact absurd heq (fun hh => Except.noConfusion hh)
    next block_data heq =>
    rw [hrd] at heq
    obtain rfl : c = block_data := Except.ok.inj heq
    by_cases hcond : acc.length + fs.disk.block_size > size
    · rw [if_pos hcond, ih]
      have htk : (c.take (size - acc.length)).length = min (size - acc.length) c.length := by
        simp
      rw [List.flatten_cons, List.take_append_eq_append_take]
      by_cases hacc : acc.length ≤ size
      · have h1 : size - acc.length ≤ fs.disk.block_size := by omega
        have h2 : (acc ++ c.take (size - acc.length)).length = size := by
          simp
          omega
        rw [h2]
        have h3 : size - size = 0 := by omega
        rw [h3, List.take_zero, List.append_nil]
        have h4 : size - acc.length - c.length = 0 := by omega
        rw [h4, List.take_zero, List.append_nil]
      · have h1 : size - acc.length = 0 := by omega
        rw [h1]
        have h2 : size - (acc ++ c.take 0).length = 0 := by
          simp
          omega
        rw [h2]
        simp
    · rw [if_neg hcond, ih]
      have hle : acc.length + fs.disk.block_size ≤ size := by omega
      rw [List.flatten_cons, List.take_append_eq_append_take]
      have h1 : c.take (size - acc.length) = c := List.take_of_length_le (by omega)
      have h2 : (acc ++ c).length = acc.length + fs.disk.block_size := by
        simp [hlen]
      rw [h1, h2]
      have h3 : size - acc.length - c.length = size - (acc.length + fs.disk.block_size) := by
        rw [hlen]
        omega
      rw [h3, List.append_assoc]

/-- Taking the first `D.length` bytes of concatenated block contents, when
each block holds the matching slice of `D` (plus arbitrary tail garbage),
recovers `D` exactly. -/
theorem flatten_take_eq {bs : Nat} (hbs : 0 < bs) :
    ∀ (cs : List (List Nat)) (D : List Nat),
      (∀ c ∈ cs, c.length = bs) →
      (∀ (j : Nat) (hj : j < cs.length), j * bs < D.length →
        ∃ g, cs[j] = (D.drop (j * bs)).take bs ++ g) →
      D.length ≤ cs.length * bs →
      cs.flatten.take D.length = D := by
  intro cs
  induction cs with
  | nil =>
    intro D hlen hsl hcap
    simp at hcap
    subst hcap
    simp
  | cons c cs' ih =>
    intro D hlen hsl hcap
    by_cases hD : D.length = 0
    · rw [List.length_eq_zero.mp hD]
      simp
    · have hc : c.length = bs := hlen c (List.mem_cons_self _ _)
      obtain ⟨g, hg⟩ := hsl 0 (by simp) (by omega)
      simp only [List.getElem_cons_zero, Nat.zero_mul, List.drop_zero] at hg
      rw [List.flatten_cons, List.take_append_eq_append_take]
      by_cases hsmall : D.length ≤ bs
      · have h1 : D.take bs = D := List.take_of_length_le (by omega)
        rw [h1] at hg
        have h2 : D.length - c.length = 0 := by omega
        rw [h2, List.take_zero, List.append_nil, hg, List.take_append_eq_append_take]
        have h3 : D.take D.length = D := List.take_of_length_le (by omega)
        rw [h3]
        have h4 : D.length - D.length = 0 := by omega
        rw [h4, List.take_zero, List.append_nil]
      · have hglen : g.length = 0 := by
          have := congrArg List.length hg
          simp at this
          omega
        rw [List.length_eq_zero.mp hglen, List.append_nil] at hg
        have h1 : c.take D.length = c := List.take_of_length_le (by omega)
        rw [h1, hg]
        have harith : D.length - (List.take bs D).length = (List.drop bs D).length := by
          simp
          omega
        rw [harith]
        have hres := ih (D.drop bs) (fun x hx => hlen x (List.mem_cons_of_mem _ hx))
          ?_ ?_
        · rw [hres, List.take_append_drop]
        · intro j hj hjl
          have hjl' : (j + 1) * bs < D.length := by
            have : (j + 1) * bs = j * bs + bs := by ring
            simp at hjl
            omega
          obtain ⟨g', hg'⟩ := hsl (j + 1) (by simpa using Nat.succ_lt_succ hj) hjl'
          refine ⟨g', ?_⟩
          rw [List.getElem_cons_succ] at hg'
          rw [hg']
          have : (D.drop bs).drop (j * bs) = D.drop ((j + 1) * bs) := by
            rw [List.drop_drop]
            congr 1
            ring
          rw [this]
        · have : (cs'.length + 1) * bs = cs'.length * bs + bs := by ring
          simp only [List.length_cons] at hcap
          simp
          omega

/-! ## Sorting and counting lemmas -/

theorem insertSorted_length (n : Nat) (l : List Nat) :
    (FileSystem.insertSorted n l).length = l.length + 1 := by
  induction l with
  | nil => rfl
  | cons m rest ih =>
    unfold FileSystem.insertSorted
    by_cases h : n ≤ m
    · rw [if_pos h]
      rfl
    · rw [if_neg h]
      simp [ih]

theorem sortNat_length (l : List Nat) : (FileSystem.sortNat l).length = l.length := by
  induction l with
  | nil => rfl
  | cons n rest ih =>
    unfold FileSystem.sortNat
    rw [insertSorted_length, ih]
    simp

/-- On an already ascending list, Python's `sorted` is the identity. -/
theorem sortNat_eq_self {l : List Nat} (h : l.Chain' (· ≤ ·)) :
    FileSystem.sortNat l = l := by
  induction l with
  | nil => rfl
  | cons n rest ih =>
    unfold FileSystem.sortNat
    rw [ih h.tail]
    cases rest with
    | nil => rfl
    | cons m rest' =>
      unfold FileSystem.insertSorted
      rw [if_pos (List.chain'_cons.mp h).1]

theorem chain'_le_range' (s k : Nat) : (List.range' s k).Chain' (· ≤ ·) := by
  have hp : (List.range' s k).Pairwise (· < ·) := List.pairwise_lt_range' s k 1 (by omega)
  exact (hp.imp (fun h => le_of_lt h)).chain'


theorem length_filter_ge_range' (t : Nat) :
    ∀ (k s : Nat),
      ((List.range' s k).filter (fun l => decide (t ≤ l))).length = s + k - max s t := by
  intro k
  induction k with
  | zero =>
    intro s
    simp only [List.range'_zero, List.filter_nil, List.length_nil]
    omega
  | succ k ih =>
    intro s
    rw [List.range'_succ s k 1]
    by_cases h : t ≤ s
    · rw [List.filter_cons_of_pos (by simpa using h)]
      simp only [List.length_cons, ih (s + 1)]
      omega
    · rw [List.filter_cons_of_neg (by simpa using h)]
      rw [ih (s + 1)]
      omega

/-! ## Association lists with range keys -/

theorem lookup_isSome_iff_mem_keys {κ α : Type} [BEq κ] [LawfulBEq κ]
    (ps : List (κ × α)) (k : κ) :
    (ps.lookup k).isSome ↔ k ∈ ps.map Prod.fst := by
  induction ps with
  | nil => simp
  | cons p rest ih =>
    obtain ⟨k0, v0⟩ := p
    by_cases hk : k = k0
    · subst hk
      simp [lookup_cons_self]
    · rw [lookup_cons_ne v0 rest hk]
      simp only [List.map_cons, List.mem_cons]
      rw [ih]
      constructor
      · exact fun hh => Or.inr hh
      · rintro (hh | hh)
        · exact absurd hh hk
        · exact hh

theorem lookup_of_keys_range' :
    ∀ (m : List (Nat × Nat)) (s K : Nat), m.map Prod.fst = List.range' s K →
      ∀ j, j < K → m.lookup (s + j) = (m.map Prod.snd)[j]? := by
  intro m
  induction m with
  | nil =>
    intro s K hk j hj
    rw [List.map_nil] at hk
    have := congrArg List.length hk
    simp at this
    omega
  | cons p rest ih =>
    intro s K hk j hj
    obtain ⟨k0, v0⟩ := p
    cases K with
    | zero => omega
    | succ K' =>
      rw [List.range'_succ s K' 1, List.map_cons] at hk
      obtain ⟨hk0, hrest⟩ := List.cons.inj hk
      subst hk0
      cases j with
      | zero =>
        rw [Nat.add_zero, lookup_cons_self]
        simp
      | succ j' =>
        have hne : k0 + (j' + 1) ≠ k0 := by omega
        rw [lookup_cons_ne v0 rest hne]
        have : k0 + (j' + 1) = (k0 + 1) + j' := by omega
        rw [this, ih (k0 + 1) K' hrest j' (by omega)]
        simp

theorem lookup_none_of_keys_range' {m : List (Nat × Nat)} {s K : Nat}
    (hk : m.map Prod.fst = List.range' s K) {j : Nat} (hj : ¬ (s ≤ j ∧ j < s + K)) :
    m.lookup j = none := by
  cases hl : m.lookup j with
  | none => rfl
  | some v =>
    have hmem : j ∈ m.map Prod.fst := (lookup_isSome_iff_mem_keys m j).mp (by simp [hl])
    rw [hk, List.mem_range'_1] at hmem
    omega

/-! ## Claim theorems -/

/-- Claim C7: for every name absent from the inode table, `read_file` returns
the `None` sentinel, `delete_file` returns false, and `write_file` returns
false (no implicit create-on-write), and none of the three calls mutates the
backing image, the bitmap, or the inode table (the returned state is exactly
the input state; `read_file` performs no writes at all). -/
theorem claim_c7_not_found_semantics (fs : FileSystem) (name : String)
    (data : List Nat) (offset : Nat) (h : fs.inodes.lookup name = none) :
    fs.read_file name = .ok none ∧
      fs.delete_file name = .ok (false, fs) ∧
      fs.write_file name data offset = .ok (false, fs) := by
  refine ⟨?_, ?_, ?_⟩
  · unfold FileSystem.read_file
    rw [h]
  · unfold FileSystem.delete_file
    rw [h]
  · unfold FileSystem.write_file FileSystem.writeAttempt FileSystem.getInode
    rw [h]

/-- Witness for C7 at a concrete state: the name `"b"` is absent from
`fs1C`. -/
theorem claim_c7_witness :
    fs1C.read_file "b" = .ok none ∧
      fs1C.delete_file "b" = .ok (false, fs1C) ∧
      fs1C.write_file "b" [1] 0 = .ok (false, fs1C) :=
  claim_c7_not_found_semantics fs1C "b" [1] 0 (by decide)

/-- Claim C10: `mark_block_used`, `mark_block_free` and `is_block_used`
perform no block-index range check — for every `n` with
`total_blocks ≤ n < block_size` they read or mutate a bitmap byte beyond the
meaningful range and return normally, while `read_block` and `write_block`
reject the same `n` with the out-of-range error. -/
theorem claim_c10_unvalidated_bitmap_indices (d : VirtualDisk) (n : Nat)
    (hwf : d.wf) (h0 : 0 < d.total_blocks)
    (htb : d.total_blocks ≤ n) (hn : n < d.block_size) :
    (d.mark_block_used n).map (fun d' => d'.bitmapByte n) = .ok (some 1) ∧
      (d.mark_block_free n).map (fun d' => d'.bitmapByte n) = .ok (some 0) ∧
      (d.is_block_used n).map (fun _ => true) = .ok true ∧
      d.read_block n = .error .outOfRangeError ∧
      (∀ data, d.write_block n data = .error .outOfRangeError) := by
  have hlen : (d.blockAt 0).length = d.block_size := blockAt_length hwf h0
  refine ⟨?_, ?_, ?_, ?_, ?_⟩
  · obtain ⟨d', hd'⟩ := mark_block_used_intro hwf h0 hn
    rw [hd']
    obtain ⟨-, -, -, hset, -⟩ := mark_block_used_ok_elim hwf hd'
    have hbyte : d'.bitmapByte n = some 1 := by
      rw [bitmapByte_eq_blockAt, hset, List.getElem?_set_self (by omega)]
    show Except.ok (d'.bitmapByte n) = Except.ok (some 1)
    rw [hbyte]
  · obtain ⟨d', hd'⟩ := mark_block_free_intro hwf h0 hn
    rw [hd']
    obtain ⟨-, -, -, hset, -⟩ := mark_block_free_ok_elim hwf hd'
    have hbyte : d'.bitmapByte n = some 0 := by
      rw [bitmapByte_eq_blockAt, hset, List.getElem?_set_self (by omega)]
    show Except.ok (d'.bitmapByte n) = Except.ok (some 0)
    rw [hbyte]
  · unfold VirtualDisk.is_block_used
    rw [read_block_eq h0]
    obtain ⟨b, hb⟩ : ∃ b, (d.blockAt 0)[n]? = some b :=
      ⟨_, List.getElem?_eq_getElem (by omega)⟩
    show Except.map (fun _ => true)
      (match (d.blockAt 0)[n]? with
        | none => Except.error PyErr.indexError
        | some b => Except.ok (decide (b = 1))) = Except.ok true
    rw [hb]
    rfl
  · unfold VirtualDisk.read_block
    rw [if_neg (by omega)]
  · intro data
    unfold VirtualDisk.write_block
    rw [if_neg (by omega)]

/-- Witness for C10: on a disk with 2 blocks of 8 bytes, index 3 is beyond
`total_blocks` but inside the bitmap buffer. -/
theorem claim_c10_witness :
    (diskC10.mark_block_used 3).map (fun d' => d'.bitmapByte 3) = .ok (some 1) ∧
      (diskC10.mark_block_free 3).map (fun d' => d'.bitmapByte 3) = .ok (some 0) ∧
      (diskC10.is_block_used 3).map (fun _ => true) = .ok true ∧
      diskC10.read_block 3 = .error .outOfRangeError ∧
      diskC10.write_block 3 [5] = .error .outOfRangeError := by
  have h := claim_c10_unvalidated_bitmap_indices diskC10 3 (by decide) (by decide)
    (by decide) (by decide)
  exact ⟨h.1, h.2.1, h.2.2.1, h.2.2.2.1, h.2.2.2.2 [5]⟩

/-- Claim C5 (code evaluated at the failing input): constructing a
`VirtualDisk` over an already-initialized 512-byte image whose bitmap marks
blocks 0, 1 and 2 used does not leave the bitmap unchanged — the constructor
unconditionally rewrites block 0 with a fresh bitmap in which only byte 0 is
set. -/
theorem claim_c5_bitmap_wiped_on_reopen :
    imgC5.take 4 = [1, 1, 1, 0] ∧
      (VirtualDisk.new (some imgC5) 512 128).map (fun d => d.image.take 4)
        = .ok [1, 0, 0, 0] := by
  decide

theorem getElem?_isNone_eq_decide (l : List Nat) (n : Nat) :
    (l[n]?).isNone = decide (l.length ≤ n) := by
  by_cases h : n < l.length
  · rw [List.getElem?_eq_getElem h]
    simp
    omega
  · rw [List.getElem?_eq_none (by omega)]
    simp
    omega

/-- Claim C2 (counterexample): on a disk whose bitmap is entirely used,
`write_file` on an existing empty file does not return false — the `NameError`
raised at the undefined `DiskFullError` escapes to the caller. -/
theorem claim_c2_counterexample :
    fsFullC.write_file "a" [7] 0 = .error .nameError := by decide

/-- Claim C2 (amended): `write_file` catches only `FileNotFoundError`; when
the allocator has no free block and a block must be allocated, the exception
raised inside `_allocate_new_block` — a `NameError`, since `DiskFullError` is
an undefined name — escapes `write_file` to the caller instead of being
converted into a false return. -/
theorem claim_c2_diskfull_raises_nameerror (fs : FileSystem) (name : String)
    (inode : Inode) (data : List Nat) (offset : Nat)
    (hbs : 0 < fs.disk.block_size)
    (hlk : fs.inodes.lookup name = some inode)
    (hblocks : inode.blocks = [])
    (hfull : fs.disk.get_free_block = .ok none) :
    fs.write_file name data offset = .error .nameError := by
  have h1 : fs.getInode name = .ok inode := by
    unfold FileSystem.getInode
    rw [hlk]
  have hse : offset / fs.disk.block_size ≤
      (offset + data.length + fs.disk.block_size - 1) / fs.disk.block_size :=
    Nat.div_le_div_right (by omega)
  have hcalc0 : fs.calculate_blocks_needed offset data.length =
      List.range' (offset / fs.disk.block_size)
        ((offset + data.length + fs.disk.block_size - 1) / fs.disk.block_size + 1
          - offset / fs.disk.block_size) := rfl
  have hcalc : fs.calculate_blocks_needed offset data.length =
      offset / fs.disk.block_size ::
        List.range' (offset / fs.disk.block_size + 1)
          ((offset + data.length + fs.disk.block_size - 1) / fs.disk.block_size
            - offset / fs.disk.block_size) := by
    rw [hcalc0]
    rw [show (offset + data.length + fs.disk.block_size - 1) / fs.disk.block_size + 1
        - offset / fs.disk.block_size
        = ((offset + data.length + fs.disk.block_size - 1) / fs.disk.block_size
          - offset / fs.disk.block_size) + 1 from by omega]
    rw [List.range'_succ _ _ 1]
  have halloc : fs.allocate_new_block = .error .nameError := by
    unfold FileSystem.allocate_new_block
    rw [hfull]
  have h2 : fs.ensure_blocks_allocated inode (fs.calculate_blocks_needed offset data.length)
      = .error .nameError := by
    rw [hcalc]
    unfold FileSystem.ensure_blocks_allocated
    rw [hblocks]
    unfold FileSystem.ensureLoop
    rw [if_neg (by simp)]
    simp only [halloc]
  have ha : fs.writeAttempt name data offset = .error .nameError := by
    unfold FileSystem.writeAttempt
    simp only [h1, h2]
  unfold FileSystem.write_file
  simp only [ha]

/-- Witness for the amended C2 at the concrete full disk. -/
theorem claim_c2_witness :
    fsFullC.write_file "a" [7] 3 = .error .nameError :=
  claim_c2_diskfull_raises_nameerror fsFullC "a"
    { name := "a", size := 0, blocks := [], created_time := 0, type := "file" }
    [7] 3 (by decide) (by decide) (by decide) (by decide)

/-- Claim C3 (counterexample): `_calculate_blocks_needed` is not the claimed
half-open range `[offset // B, ceil((offset+len)/B))`: a 128-byte write at
offset 0 with block size 128 needs the claimed range `[0]`, but the code
computes the inclusive range `[0, 1]` and allocates a physical block for
logical block 1 as well (the fresh file ends up owning two blocks). -/
theorem claim_c3_counterexample :
    fs1C.calculate_blocks_needed 0 128 = [0, 1] ∧
      specBlocksNeeded fs1C 0 128 = [0] ∧
      (fs1C.write_file "a" (List.replicate 128 7) 0).map
        (fun p => (p.2.inodes.lookup "a").map Inode.blocks) = .ok (some [2, 3]) := by
  decide

/-- Claim C3 (amended): the needed set is the *inclusive* range
`[offset // B, ceil((offset+len)/B)]` (one block more than the claimed
half-open range), and a successful `_ensure_blocks_allocated` allocates new
physical blocks for exactly the members of that range absent from the seeded
mapping — the new logical keys are the needed blocks at or beyond
`len(inode.blocks)`, in order, and nothing outside the range. -/
theorem claim_c3_needed_range_inclusive (fs : FileSystem) (inode : Inode)
    (offset dlen : Nat) (m1 : List (Nat × Nat)) (fs1 : FileSystem)
    (hwf : fs.disk.wf)
    (h : fs.ensure_blocks_allocated inode (fs.calculate_blocks_needed offset dlen)
      = .ok (m1, fs1)) :
    fs.calculate_blocks_needed offset dlen =
      List.range' (offset / fs.disk.block_size)
        ((offset + dlen + fs.disk.block_size - 1) / fs.disk.block_size + 1
          - offset / fs.disk.block_size) ∧
    m1.map Prod.fst =
      List.range' 0 inode.blocks.length ++
        (fs.calculate_blocks_needed offset dlen).filter
          (fun l => decide (inode.blocks.length ≤ l)) := by
  have hcalc0 : fs.calculate_blocks_needed offset dlen =
      List.range' (offset / fs.disk.block_size)
        ((offset + dlen + fs.disk.block_size - 1) / fs.disk.block_size + 1
          - offset / fs.disk.block_size) := rfl
  refine ⟨hcalc0, ?_⟩
  unfold FileSystem.ensure_blocks_allocated at h
  have hnd : (fs.calculate_blocks_needed offset dlen).Nodup := by
    rw [hcalc0]
    exact List.nodup_range' _ _ 1 (by omega)
  obtain ⟨-, -, -, -, -, newPairs, -, hkeys, -, -⟩ := ensureLoop_ok_elim hwf hnd h
  rw [hkeys]
  congr 1
  · rw [List.map_fst_zip]
    simp
  · apply List.filter_congr
    intro x hx
    simp only [lookup_zip_range'_zero, getElem?_isNone_eq_decide]

/-- Witness for the amended C3: the two-block allocation on `fs1C`'s fresh
file covers exactly the inclusive range `[0, 1]`. -/
theorem claim_c3_witness :
    fs1C.calculate_blocks_needed 0 128 =
      List.range' (0 / fs1C.disk.block_size)
        ((0 + 128 + fs1C.disk.block_size - 1) / fs1C.disk.block_size + 1
          - 0 / fs1C.disk.block_size) ∧
    ensC.1.map Prod.fst =
      List.range' 0 (Inode.new "a" 0).blocks.length ++
        (fs1C.calculate_blocks_needed 0 128).filter
          (fun l => decide ((Inode.new "a" 0).blocks.length ≤ l)) :=
  claim_c3_needed_range_inclusive fs1C (Inode.new "a" 0) 0 128 ensC.1 ensC.2
    (by decide) (by decide)

/-- Claim C8: whenever the JSON-serialized inode table exceeds one block,
`save_inode_table` raises the device's oversized-write error, and the mutating
operation in progress — `create_file`, `delete_file`, or `write_file`'s table
persist — propagates the exception to the caller instead of returning false:
the table silently has only one block of capacity. -/
theorem claim_c8_inode_table_capacity :
    (∀ fs : FileSystem, fs.inode_table_block = 1 → 1 < fs.disk.total_blocks →
      (strToBytes (jsonDumps fs.inodes)).length > fs.disk.block_size →
      fs.save_inode_table = .error .oversizedWriteError) ∧
    (∀ (fs : FileSystem) (name : String) (now : Nat),
      fs.inode_table_block = 1 → 1 < fs.disk.total_blocks →
      fs.inodes.lookup name = none →
      (strToBytes (jsonDumps
        (FileSystem.dictInsert fs.inodes name (Inode.new name now)))).length
        > fs.disk.block_size →
      fs.create_file name now = .error .oversizedWriteError) ∧
    (∀ (fs : FileSystem) (name : String) (inode : Inode),
      fs.inode_table_block = 1 → 1 < fs.disk.total_blocks →
      fs.inodes.lookup name = some inode → inode.blocks = [] →
      (strToBytes (jsonDumps (FileSystem.dictRemove fs.inodes name))).length
        > fs.disk.block_size →
      fs.delete_file name = .error .oversizedWriteError) ∧
    (∀ (fs : FileSystem) (name : String) (inode : Inode) (b : Nat),
      fs.inode_table_block = 1 → 1 < fs.disk.total_blocks →
      0 < fs.disk.block_size →
      fs.inodes.lookup name = some inode → inode.blocks = [b] →
      (strToBytes (jsonDumps fs.inodes)).length > fs.disk.block_size →
      fs.write_file name [] 0 = .error .oversizedWriteError) := by
  have hsave : ∀ fs : FileSystem, fs.inode_table_block = 1 → 1 < fs.disk.total_blocks →
      (strToBytes (jsonDumps fs.inodes)).length > fs.disk.block_size →
      fs.save_inode_table = .error .oversizedWriteError := by
    intro fs hitb htb hcap
    have hw : fs.disk.write_block 1 (strToBytes (jsonDumps fs.inodes))
        = .error .oversizedWriteError := by
      unfold VirtualDisk.write_block
      rw [if_pos htb, if_pos hcap]
    unfold FileSystem.save_inode_table
    rw [hitb]
    simp only [hw]
  refine ⟨hsave, ?_, ?_, ?_⟩
  · intro fs name now hitb htb hlk hcap
    unfold FileSystem.create_file
    simp only [hlk, Option.isSome_none, Bool.false_eq_true, if_false]
    have hs := hsave
      { fs with inodes := FileSystem.dictInsert fs.inodes name (Inode.new name now) }
      hitb htb hcap
    simp only [hs]
  · intro fs name inode hitb htb hlk hblocks hcap
    unfold FileSystem.delete_file
    simp only [hlk, hblocks]
    rw [show FileSystem.freeBlocks fs.disk [] = .ok fs.disk from rfl]
    have hs := hsave
      { fs with disk := fs.disk, inodes := FileSystem.dictRemove fs.inodes name }
      hitb htb hcap
    simp only [hs]
  · intro fs name inode b hitb htb hbs hlk hblocks hcap
    have h1 : fs.getInode name = .ok inode := by
      unfold FileSystem.getInode
      rw [hlk]
    have hcalc : fs.calculate_blocks_needed 0 0 = [0] := by
      have h0 : fs.calculate_blocks_needed 0 0 =
          List.range' (0 / fs.disk.block_size)
            ((0 + 0 + fs.disk.block_size - 1) / fs.disk.block_size + 1
              - 0 / fs.disk.block_size) := rfl
      rw [h0, Nat.zero_div, Nat.div_eq_of_lt (by omega)]
      rfl
    have hens : fs.ensure_blocks_allocated inode (fs.calculate_blocks_needed 0 0)
        = .ok ([(0, b)], fs) := by
      rw [hcalc]
      unfold FileSystem.ensure_blocks_allocated
      rw [hblocks]
      rw [show (List.range' 0 ([b] : List Nat).length).zip [b] = [(0, b)] from rfl]
      unfold FileSystem.ensureLoop
      rw [if_pos (by rw [lookup_cons_self]; rfl)]
      rfl
    have hwd : fs.write_data_to_blocks [] 0 [(0, b)] = .ok fs := rfl
    have hblist : (FileSystem.sortNat ([((0 : Nat), b)].map Prod.fst)).map
        (fun i => (([((0 : Nat), b)].lookup i).getD 0)) = [b] := by
      rw [show FileSystem.sortNat ([((0 : Nat), b)].map Prod.fst) = [0] from rfl]
      rw [List.map_cons, lookup_cons_self, List.map_nil]
      rfl
    have hupd : fs.update_inode name inode 0 0 [(0, b)] = .error .oversizedWriteError := by
      unfold FileSystem.update_inode
      rw [hblist]
      have hinode1 : { inode with blocks := [b], size := max inode.size (0 + 0) }
          = inode := by
        have hm : max inode.size (0 + 0) = inode.size := by omega
        rw [hm, ← hblocks]
      rw [hinode1, dictInsert_self _ _ _ hlk]
      exact hsave fs hitb htb hcap
    have hatt : fs.writeAttempt name [] 0 = .error .oversizedWriteError := by
      unfold FileSystem.writeAttempt
      simp only [List.length_nil, h1, hens, hwd, hupd]
    unfold FileSystem.write_file
    simp only [hatt]

/-- Witness for C8 on the tiny 4-byte-block geometry, one concrete instance
per operation. -/
theorem claim_c8_witness :
    fsJumboC.save_inode_table = .error .oversizedWriteError ∧
      fsEmptyTblC.create_file "abc" 0 = .error .oversizedWriteError ∧
      fsTwoC.delete_file "a" = .error .oversizedWriteError ∧
      fsOneBlkC.write_file "a" [] 0 = .error .oversizedWriteError := by
  obtain ⟨h1, h2, h3, h4⟩ := claim_c8_inode_table_capacity
  refine ⟨h1 fsJumboC (by decide) (by decide) (by decide),
    h2 fsEmptyTblC "abc" 0 (by decide) (by decide) (by decide) (by decide),
    h3 fsTwoC "a" { name := "a", size := 0, blocks := [], created_time := 0
                    type := "file" } (by decide) (by decide) (by decide) (by decide)
      (by decide),
    h4 fsOneBlkC "a" { name := "a", size := 0, blocks := [2], created_time := 0
                       type := "file" } 2 (by decide) (by decide) (by decide)
      (by decide) (by decide) (by decide)⟩

/-! ## Fresh-image initialization on the default geometry -/

theorem dropWhile_zero_replicate (n : Nat) :
    (List.replicate n (0 : Nat)).dropWhile (· == 0) = [] := by
  induction n with
  | zero => rfl
  | succ k ih =>
    rw [List.replicate_succ, List.dropWhile_cons_of_pos (by simp)]
    exact ih

theorem rstripNulls_replicate (n : Nat) : rstripNulls (List.replicate n 0) = [] := by
  unfold rstripNulls
  rw [List.reverse_replicate, dropWhile_zero_replicate]
  rfl

theorem getElem?_replicate_lt {n i : Nat} {a : Nat} (h : i < n) :
    (List.replicate n a)[i]? = some a := by
  rw [List.getElem?_eq_getElem (by simp [h])]
  simp

/-- The `VirtualDisk` constructor over a missing backing file, evaluated
symbolically for any geometry. -/
theorem new_none_eval (ts bs : Nat) (hbs : 0 < bs) (htb : 0 < ts / bs) :
    VirtualDisk.new none ts bs = .ok (freshDisk ts bs) := by
  have hbmlen : ((List.replicate bs (0 : Nat)).set 0 1).length = bs := by simp
  have h0 : VirtualDisk.new none ts bs = VirtualDisk.initializeBitmap
      { total_size_bytes := ts, block_size := bs, total_blocks := ts / bs
        image := List.replicate ts 0 } := rfl
  rw [h0]
  unfold VirtualDisk.initializeBitmap
  rw [if_pos (show (0 : Nat) < bs from hbs)]
  rw [write_block_eq_ok (show (0 : Nat) < ts / bs from htb)
    (show ((List.replicate bs (0 : Nat)).set 0 1).length ≤ bs from by omega)]
  have himg : writeBytes (List.replicate ts 0) (0 * bs)
      ((List.replicate bs 0).set 0 1
        ++ List.replicate (bs - ((List.replicate bs (0:Nat)).set 0 1).length) 0)
      = ((List.replicate bs 0).set 0 1) ++ List.replicate (ts - bs) 0 := by
    rw [hbmlen, Nat.sub_self, List.replicate_zero, List.append_nil, Nat.zero_mul]
    unfold writeBytes
    rw [List.take_zero, List.length_replicate, Nat.zero_sub, List.replicate_zero,
      List.nil_append, List.nil_append, Nat.zero_add, hbmlen, List.drop_replicate]
  show Except.ok
      { total_size_bytes := ts, block_size := bs, total_blocks := ts / bs
        image := writeBytes (List.replicate ts 0) (0 * bs)
          ((List.replicate bs 0).set 0 1
            ++ List.replicate (bs - ((List.replicate bs (0:Nat)).set 0 1).length) 0) }
    = Except.ok (freshDisk ts bs)
  rw [himg]
  rfl

/-- Reading the inode-table block of a freshly initialized disk yields an
all-zero block. -/
theorem freshDisk_read1 (ts bs : Nat) (h1 : 1 < ts / bs) (h2 : bs ≤ ts - bs) :
    (freshDisk ts bs).read_block 1 = .ok (List.replicate bs 0) := by
  have hbmlen : ((List.replicate bs (0 : Nat)).set 0 1).length = bs := by simp
  rw [read_block_eq (show 1 < (freshDisk ts bs).total_blocks from h1)]
  congr 1
  show ((((List.replicate bs (0:Nat)).set 0 1) ++ List.replicate (ts - bs) 0).drop
    (1 * bs)).take bs = List.replicate bs 0
  have hdl := List.drop_left ((List.replicate bs (0:Nat)).set 0 1)
    (List.replicate (ts - bs) (0:Nat))
  rw [hbmlen] at hdl
  rw [Nat.one_mul, hdl, List.take_replicate]
  congr 1
  omega

theorem freshDisk_bitmap0 (ts bs : Nat) (hbs : 0 < bs) :
    (freshDisk ts bs).bitmapByte 0 = some 1 := by
  have hbmlen : ((List.replicate bs (0 : Nat)).set 0 1).length = bs := by simp
  show ((((List.replicate bs (0:Nat)).set 0 1) ++ List.replicate (ts - bs) 0).take bs)[0]?
    = some 1
  have htl := List.take_left ((List.replicate bs (0:Nat)).set 0 1)
    (List.replicate (ts - bs) (0:Nat))
  rw [hbmlen] at htl
  rw [htl, List.getElem?_set_self (by rw [List.length_replicate]; omega)]

theorem freshDisk_bitmap1 (ts bs : Nat) (hbs : 1 < bs) :
    (freshDisk ts bs).bitmapByte 1 = some 0 := by
  have hbmlen : ((List.replicate bs (0 : Nat)).set 0 1).length = bs := by simp
  show ((((List.replicate bs (0:Nat)).set 0 1) ++ List.replicate (ts - bs) 0).take bs)[1]?
    = some 0
  have htl := List.take_left ((List.replicate bs (0:Nat)).set 0 1)
    (List.replicate (ts - bs) (0:Nat))
  rw [hbmlen] at htl
  rw [htl, List.getElem?_set_ne (by omega), getElem?_replicate_lt (by omega)]

/-- Evaluating the engine constructor on a missing backing file with the
default 1 MiB geometry. -/
theorem init_none_eval : FileSystem.init none = .ok fsInitDefault := by
  have hnew : VirtualDisk.new none = .ok (freshDisk (1024 * 1024) 4096) :=
    new_none_eval (1024 * 1024) 4096 (by norm_num) (by norm_num)
  have hrd : (freshDisk (1024 * 1024) 4096).read_block 1 = .ok (List.replicate 4096 0) :=
    freshDisk_read1 (1024 * 1024) 4096 (by norm_num) (by norm_num)
  have hload : FileSystem.load_inode_table
      { disk := freshDisk (1024 * 1024) 4096, inode_table_block := 1, inodes := [] }
      = .ok fsInitDefault := by
    unfold FileSystem.load_inode_table
    simp only [hrd, rstripNulls_replicate, List.isEmpty_nil, if_true]
    rfl
  unfold FileSystem.init
  simp only [hnew, hload]

/-- Claim C6 (counterexample): immediately after the engine is constructed
over a fresh default-geometry image — before any create/write/delete — bitmap
byte 0 is 1 but bitmap byte 1 is 0: block 1 is *not* yet marked used, because
an empty (all-null) table block decodes without an exception and the loader
persists nothing. -/
theorem claim_c6_counterexample :
    (FileSystem.init none).map (fun fs => (fs.disk.bitmapByte 0, fs.disk.bitmapByte 1))
      = .ok (some 1, some 0) := by
  rw [init_none_eval]
  show Except.ok (fsInitDefault.disk.bitmapByte 0, fsInitDefault.disk.bitmapByte 1)
    = .ok (some 1, some 0)
  rw [show fsInitDefault.disk = freshDisk (1024 * 1024) 4096 from rfl]
  rw [freshDisk_bitmap0 _ _ (by norm_num), freshDisk_bitmap1 _ _ (by norm_num)]

/-- Claim C6 (amended): after initialization on a fresh image, bitmap byte 0
is 1 but bitmap byte 1 is still 0; byte 1 becomes 1 at the first successful
`save_inode_table` (the first create/write/delete), and every save sets byte 1
while leaving every other bitmap byte unchanged. -/
theorem claim_c6_reserved_bitmap_amended :
    ((FileSystem.init none).map (fun fs => fs.disk.bitmapByte 0) = .ok (some 1)) ∧
      ((FileSystem.init none).map (fun fs => fs.disk.bitmapByte 1) = .ok (some 0)) ∧
      (∀ fs fs' : FileSystem, fs.disk.wf → fs.inode_table_block = 1 →
        fs.save_inode_table = .ok fs' →
        fs'.disk.bitmapByte 1 = some 1 ∧
          ∀ m, m ≠ 1 → fs'.disk.bitmapByte m = fs.disk.bitmapByte m) := by
  refine ⟨?_, ?_, ?_⟩
  · rw [init_none_eval]
    show Except.ok (fsInitDefault.disk.bitmapByte 0) = .ok (some 1)
    rw [show fsInitDefault.disk = freshDisk (1024 * 1024) 4096 from rfl]
    rw [freshDisk_bitmap0 _ _ (by norm_num)]
  · rw [init_none_eval]
    show Except.ok (fsInitDefault.disk.bitmapByte 1) = .ok (some 0)
    rw [show fsInitDefault.disk = freshDisk (1024 * 1024) 4096 from rfl]
    rw [freshDisk_bitmap1 _ _ (by norm_num)]
  · intro fs fs' hwf hitb hsave
    obtain ⟨-, -, -, hb1, hbo, -⟩ := save_ok_elim hwf hitb hsave
    exact ⟨hb1, hbo⟩

/-- Witness for the amended C6: a concrete save over the small geometry marks
bitmap byte 1 used and leaves byte 0 as it was. -/
theorem claim_c6_witness :
    fs0Csaved.disk.bitmapByte 1 = some 1 ∧
      fs0Csaved.disk.bitmapByte 0 = fs0C.disk.bitmapByte 0 := by
  have h := claim_c6_reserved_bitmap_amended.2.2 fs0C fs0Csaved (by decide) (by decide)
    (by decide)
  exact ⟨h.1, h.2 0 (by decide)⟩

/-- Claim C9: for an existing file with an empty block list (and size 0), an
empty write at offset 0 returns true, allocates exactly one physical block —
the scanner's first free block — marks it used, and leaves the file size at 0;
no bitmap byte other than the allocated block's and the table block's is
touched.  (The disk must have a free block and the updated table must fit its
block, otherwise the write raises instead.) -/
theorem claim_c9_empty_write_allocates (fs : FileSystem) (name : String)
    (inode : Inode) (b : Nat)
    (hwf : fs.disk.wf) (hitb : fs.inode_table_block = 1)
    (htb : 1 < fs.disk.total_blocks)
    (htbbs : fs.disk.total_blocks ≤ fs.disk.block_size)
    (hlk : fs.inodes.lookup name = some inode)
    (hblocks : inode.blocks = [])
    (hsize : inode.size = 0)
    (hfree : fs.disk.get_free_block = .ok (some b))
    (hcap : (strToBytes (jsonDumps (FileSystem.dictInsert fs.inodes name
      { inode with blocks := [b], size := 0 }))).length ≤ fs.disk.block_size) :
    (fs.write_file name [] 0).map Prod.fst = .ok true ∧
      (fs.write_file name [] 0).map
        (fun p => (p.2.inodes.lookup name).map Inode.blocks) = .ok (some [b]) ∧
      (fs.write_file name [] 0).map
        (fun p => (p.2.inodes.lookup name).map Inode.size) = .ok (some 0) ∧
      (fs.write_file name [] 0).map
        (fun p => p.2.disk.bitmapByte b) = .ok (some 1) ∧
      (∀ m, m ≠ b → m ≠ 1 → (fs.write_file name [] 0).map
        (fun p => p.2.disk.bitmapByte m) = .ok (fs.disk.bitmapByte m)) := by
  have hbs : 0 < fs.disk.block_size := hwf.1
  obtain ⟨hb1, hbtb, hbfree⟩ := get_free_block_some_elim hfree
  have h1 : fs.getInode name = .ok inode := by
    unfold FileSystem.getInode
    rw [hlk]
  have hcalc : fs.calculate_blocks_needed 0 0 = [0] := by
    have h0 : fs.calculate_blocks_needed 0 0 =
        List.range' (0 / fs.disk.block_size)
          ((0 + 0 + fs.disk.block_size - 1) / fs.disk.block_size + 1
            - 0 / fs.disk.block_size) := rfl
    rw [h0, Nat.zero_div, Nat.div_eq_of_lt (by omega)]
    rfl
  have halloc : fs.allocate_new_block = .ok b := by
    unfold FileSystem.allocate_new_block
    rw [hfree]
  obtain ⟨diskA, hm⟩ := @mark_block_used_intro fs.disk b hwf (by omega) (by omega)
  obtain ⟨hm0, hmbs, hmg, hmset, hmo⟩ := mark_block_used_ok_elim hwf hm
  have hens : fs.ensure_blocks_allocated inode (fs.calculate_blocks_needed 0 0)
      = .ok ([(0, b)], { fs with disk := diskA }) := by
    rw [hcalc]
    unfold FileSystem.ensure_blocks_allocated
    rw [hblocks]
    rw [show (List.range' 0 (([] : List Nat)).length).zip ([] : List Nat)
      = ([] : List (Nat × Nat)) from rfl]
    unfold FileSystem.ensureLoop
    rw [if_neg (by simp)]
    simp only [halloc, hm]
    unfold FileSystem.ensureLoop
    rw [List.nil_append]
  have hwd : FileSystem.write_data_to_blocks { fs with disk := diskA } [] 0 [(0, b)]
      = .ok { fs with disk := diskA } := rfl
  have hblist : (FileSystem.sortNat ([((0 : Nat), b)].map Prod.fst)).map
      (fun i => (([((0 : Nat), b)].lookup i).getD 0)) = [b] := by
    rw [show FileSystem.sortNat ([((0 : Nat), b)].map Prod.fst) = [0] from rfl]
    rw [List.map_cons, lookup_cons_self, List.map_nil]
    rfl
  have hwfA : ({ fs with disk := diskA } : FileSystem).disk.wf := wf_of_geomEq hmg hwf
  have hsizemax : max inode.size (0 + 0) = 0 := by
    simp [hsize]
  obtain ⟨fsC, hsv⟩ := @save_ok_intro
    { fs with
      disk := diskA
      inodes := FileSystem.dictInsert fs.inodes name
        { inode with blocks := [b], size := 0 } }
    hwfA hitb (by
      have := hmg.2.2.1
      show diskA.total_blocks > 1
      omega) (by
      have := hmg.2.1
      show diskA.block_size > 1
      omega) (by
      show (strToBytes (jsonDumps (FileSystem.dictInsert fs.inodes name
        { inode with blocks := [b], size := 0 }))).length ≤ diskA.block_size
      have := hmg.2.1
      omega)
  have hupd : FileSystem.update_inode { fs with disk := diskA } name inode 0 0 [(0, b)]
      = .ok fsC := by
    unfold FileSystem.update_inode
    rw [hblist, hsizemax]
    exact hsv
  have hatt : fs.writeAttempt name [] 0 = .ok fsC := by
    unfold FileSystem.writeAttempt
    simp only [List.length_nil, h1, hens, hwd, hupd]
  have hw : fs.write_file name [] 0 = .ok (true, fsC) := by
    unfold FileSystem.write_file
    simp only [hatt]
  obtain ⟨hci, hcitb, hcg, hcb1, hcbo, hcblk⟩ := @save_ok_elim
    { fs with
      disk := diskA
      inodes := FileSystem.dictInsert fs.inodes name
        { inode with blocks := [b], size := 0 } }
    fsC hwfA hitb hsv
  have hclk : fsC.inodes.lookup name = some { inode with blocks := [b], size := 0 } := by
    rw [show fsC.inodes = FileSystem.dictInsert fs.inodes name
      { inode with blocks := [b], size := 0 } from hci]
    exact lookup_dictInsert_self _ _ _
  have hbitb : fsC.disk.bitmapByte b = some 1 := by
    by_cases hbeq : b = 1
    · rw [hbeq]
      exact hcb1
    · rw [hcbo b hbeq]
      exact bitmapByte_after_mark_used_self hwf hm
  refine ⟨?_, ?_, ?_, ?_, ?_⟩
  · rw [hw]
    rfl
  · rw [hw]
    show Except.ok ((fsC.inodes.lookup name).map Inode.blocks) = .ok (some [b])
    rw [hclk]
    rfl
  · rw [hw]
    show Except.ok ((fsC.inodes.lookup name).map Inode.size) = .ok (some 0)
    rw [hclk]
    rfl
  · rw [hw]
    show Except.ok (fsC.disk.bitmapByte b) = .ok (some 1)
    rw [hbitb]
  · intro m hmb hm1
    rw [hw]
    show Except.ok (fsC.disk.bitmapByte m) = .ok (fs.disk.bitmapByte m)
    rw [hcbo m hm1]
    show Except.ok (diskA.bitmapByte m) = _
    rw [bitmapByte_after_mark_used_other hwf hm hmb]

/-- Witness for C9: the empty write on `fs1C`'s fresh file allocates block 2
and keeps the size at 0. -/
theorem claim_c9_witness :
    (fs1C.write_file "a" [] 0).map Prod.fst = .ok true ∧
      (fs1C.write_file "a" [] 0).map
        (fun p => (p.2.inodes.lookup "a").map Inode.blocks) = .ok (some [2]) ∧
      (fs1C.write_file "a" [] 0).map
        (fun p => (p.2.inodes.lookup "a").map Inode.size) = .ok (some 0) ∧
      (fs1C.write_file "a" [] 0).map
        (fun p => p.2.disk.bitmapByte 2) = .ok (some 1) := by
  have h := claim_c9_empty_write_allocates fs1C "a" (Inode.new "a" 0) 2
    (by decide) (by decide) (by decide) (by decide) (by decide) (by decide)
    (by decide) (by decide) (by decide)
  exact ⟨h.1, h.2.1, h.2.2.1, h.2.2.2.1⟩

/-- A successful pass of the write loop never touches the inode table: only
the disk field changes. -/
theorem writeLoop_ok_inodes (data : List Nat) (mapping : List (Nat × Nat))
    (fuel : Nat) : ∀ (fs : FileSystem) (co dof : Nat) (fs' : FileSystem),
    FileSystem.writeLoop data mapping fuel fs co dof = .ok fs' →
    fs'.inodes = fs.inodes ∧ fs'.inode_table_block = fs.inode_table_block := by
  induction fuel with
  | zero =>
    intro fs co dof fs' h
    unfold FileSystem.writeLoop at h
    obtain rfl := Except.ok.inj h
    exact ⟨rfl, rfl⟩
  | succ fuel ih =>
    intro fs co dof fs' h
    unfold FileSystem.writeLoop at h
    split at h
    · split at h
      · exact absurd h (fun hh => Except.noConfusion hh)
      · split at h
        · obtain rfl := Except.ok.inj h
          exact ⟨rfl, rfl⟩
        · split at h
          · exact absurd h (fun hh => Except.noConfusion hh)
          · split at h
            · exact absurd h (fun hh => Except.noConfusion hh)
            · obtain ⟨h1, h2⟩ := ih _ _ _ _ h
              exact ⟨h1, h2⟩
    · obtain rfl := Except.ok.inj h
      exact ⟨rfl, rfl⟩

/-- A successful `save_inode_table` never touches the inode table itself: only
the disk field changes. -/
theorem save_ok_inodes {fs fs' : FileSystem}
    (h : fs.save_inode_table = .ok fs') :
    fs'.inodes = fs.inodes ∧ fs'.inode_table_block = fs.inode_table_block := by
  unfold FileSystem.save_inode_table at h
  split at h
  · exact absurd h (fun hh => Except.noConfusion hh)
  · split at h
    · exact absurd h (fun hh => Except.noConfusion hh)
    · obtain rfl := Except.ok.inj h
      exact ⟨rfl, rfl⟩

/-- Counterexample to claim C4: the sparse write `write_file "a" [7] 256` on a
fresh zero-length file (block size 128) succeeds and leaves an inode with
`size = 257` but only two allocated blocks, so `ceil(size / B) = 3 > 2 =
len(blocks)` — the invariant fails after a successful write beyond EOF. -/
theorem claim_c4_counterexample :
    (fs1C.write_file "a" [7] 256).map Prod.fst = .ok true ∧
      (fs1C.write_file "a" [7] 256).map (fun p =>
        (p.2.inodes.lookup "a").map (fun i =>
          decide ((i.size + p.2.disk.block_size - 1) / p.2.disk.block_size
            ≤ i.blocks.length))) = .ok (some false) := by
  decide

/-- Claim C4 (amended): the invariant `ceil(size / B) <= len(blocks)` is
preserved by every successful `write_file` that does not skip past the
allocated prefix — i.e. under the additional no-gap precondition
`offset / B <= len(blocks)` — provided it held before the write.  (Sparse
writes beyond that point break it, as the counterexample shows.) -/
theorem claim_c4_invariant_nongap_writes (fs fs' : FileSystem) (name : String)
    (data : List Nat) (offset : Nat) (inode : Inode)
    (hwf : fs.disk.wf)
    (hlk : fs.inodes.lookup name = some inode)
    (hinv : (inode.size + fs.disk.block_size - 1) / fs.disk.block_size
      ≤ inode.blocks.length)
    (hgap : offset / fs.disk.block_size ≤ inode.blocks.length)
    (h : fs.write_file name data offset = .ok (true, fs')) :
    ∀ inode', fs'.inodes.lookup name = some inode' →
      (inode'.size + fs.disk.block_size - 1) / fs.disk.block_size
        ≤ inode'.blocks.length := by
  have hbs : 0 < fs.disk.block_size := hwf.1
  unfold FileSystem.write_file at h
  split at h
  next fs3 hatt =>
    obtain rfl : fs3 = fs' := (Prod.mk.inj (Except.ok.inj h)).2
    have hgi : fs.getInode name = .ok inode := by
      unfold FileSystem.getInode
      rw [hlk]
    unfold FileSystem.writeAttempt at hatt
    simp only [hgi] at hatt
    split at hatt
    · exact absurd hatt (fun hh => Except.noConfusion hh)
    next m1 fsA hens =>
      split at hatt
      · exact absurd hatt (fun hh => Except.noConfusion hh)
      next fsB hwd =>
        unfold FileSystem.update_inode at hatt
        obtain ⟨hfi, -⟩ := save_ok_inodes hatt
        intro inode' hlk'
        have hlkd : fs3.inodes.lookup name = some { inode with
            blocks := (FileSystem.sortNat (m1.map Prod.fst)).map
              (fun i => (m1.lookup i).getD 0)
            size := max inode.size (offset + data.length) } := by
          rw [hfi]
          exact lookup_dictInsert_self _ _ _
        rw [hlkd] at hlk'
        obtain rfl := Option.some.inj hlk'
        show (max inode.size (offset + data.length) + fs.disk.block_size - 1)
            / fs.disk.block_size
          ≤ ((FileSystem.sortNat (m1.map Prod.fst)).map
              (fun i => (m1.lookup i).getD 0)).length
        have hnd : (fs.calculate_blocks_needed offset data.length).Nodup := by
          show (List.range' (offset / fs.disk.block_size)
            ((offset + data.length + fs.disk.block_size - 1) / fs.disk.block_size + 1
              - offset / fs.disk.block_size)).Nodup
          exact List.nodup_range' _ _ 1 (by omega)
        unfold FileSystem.ensure_blocks_allocated at hens
        obtain ⟨-, -, -, -, -, newPairs, -, hkeys, -, -⟩ :=
          ensureLoop_ok_elim hwf hnd hens
        rw [List.length_map, sortNat_length, hkeys, List.length_append]
        rw [show ((List.range' 0 inode.blocks.length).zip inode.blocks).map Prod.fst
          = List.range' 0 inode.blocks.length from List.map_fst_zip _ _ (by simp)]
        rw [List.length_range']
        have hfilt : ((fs.calculate_blocks_needed offset data.length).filter
            (fun l => (((List.range' 0 inode.blocks.length).zip
              inode.blocks).lookup l).isNone)).length
            = offset / fs.disk.block_size
              + ((offset + data.length + fs.disk.block_size - 1)
                  / fs.disk.block_size + 1 - offset / fs.disk.block_size)
              - max (offset / fs.disk.block_size) inode.blocks.length := by
          rw [show fs.calculate_blocks_needed offset data.length
            = List.range' (offset / fs.disk.block_size)
              ((offset + data.length + fs.disk.block_size - 1) / fs.disk.block_size
                + 1 - offset / fs.disk.block_size) from rfl]
          have hpred : ∀ x : Nat,
              (((List.range' 0 inode.blocks.length).zip inode.blocks).lookup x).isNone
                = decide (inode.blocks.length ≤ x) := fun x => by
            simp only [lookup_zip_range'_zero, getElem?_isNone_eq_decide]
          simp only [hpred]
          exact length_filter_ge_range' _ _ _
        rw [hfilt, Nat.max_eq_right hgap]
        have hsB : offset / fs.disk.block_size
            ≤ (offset + data.length + fs.disk.block_size - 1) / fs.disk.block_size :=
          Nat.div_le_div_right (by omega)
        rcases Nat.le_total inode.size (offset + data.length) with hle | hge
        · rw [Nat.max_eq_right hle]
          omega
        · rw [Nat.max_eq_left hge]
          omega
  next h1 =>
    exact absurd (Prod.mk.inj (Except.ok.inj h)).1 (by simp)
  next e h1 h2 =>
    exact absurd h (fun hh => Except.noConfusion hh)

/-- Witness for the amended C4: the in-range write `write_file "a" [1, 2, 3] 0`
on a fresh zero-length file preserves the invariant, which the resulting inode
(`size = 3`, two blocks) satisfies. -/
theorem claim_c4_witness :
    fs1C.write_file "a" [1, 2, 3] 0 = .ok (true, fs2C) ∧
      ((Inode.new "a" 0).size + fs1C.disk.block_size - 1) / fs1C.disk.block_size
        ≤ (Inode.new "a" 0).blocks.length ∧
      0 / fs1C.disk.block_size ≤ (Inode.new "a" 0).blocks.length ∧
      (inodeC4.size + fs1C.disk.block_size - 1) / fs1C.disk.block_size
        ≤ inodeC4.blocks.length := by
  refine ⟨by decide, by decide, by decide, ?_⟩
  exact claim_c4_invariant_nongap_writes fs1C fs2C "a" [1, 2, 3] 0 (Inode.new "a" 0)
    (by decide) (by decide) (by decide) (by decide) (by decide) inodeC4 (by decide)

/-- Claim C1: round-trip — creating a file and then writing byte sequence `D`
at offset 0 (successfully, i.e. with enough free blocks and table capacity)
makes `read_file` return exactly `D`: same length and bytes, with no trailing
zero-padding from the last block exposed.  `D` ranges over all byte lists,
from empty to several blocks long. -/
theorem claim_c1_write_read_roundtrip (fs0 fs1 fs2 : FileSystem) (name : String)
    (now : Nat) (D : List Nat)
    (hwf : fs0.disk.wf) (hitb : fs0.inode_table_block = 1)
    (hcr : fs0.create_file name now = .ok (true, fs1))
    (hwr : fs1.write_file name D 0 = .ok (true, fs2)) :
    fs2.read_file name = .ok (some D) := by
  obtain ⟨hlk0, hi1, hit1, hg1, hb1one, hb1o, hblk1⟩ := create_ok_elim hwf hitb hcr
  have hwf1 : fs1.disk.wf := wf_of_geomEq hg1 hwf
  have hitb1 : fs1.inode_table_block = 1 := hit1.trans hitb
  have hbs : 0 < fs1.disk.block_size := hwf1.1
  unfold FileSystem.write_file at hwr
  split at hwr
  next fs3 hatt =>
    have hfs3 : fs3 = fs2 := (Prod.mk.inj (Except.ok.inj hwr)).2
    rw [hfs3] at hatt
    have hlkI : fs1.inodes.lookup name = some (Inode.new name now) := by
      rw [hi1]
      exact lookup_dictInsert_self _ _ _
    have hgi : fs1.getInode name = .ok (Inode.new name now) := by
      unfold FileSystem.getInode
      rw [hlkI]
    unfold FileSystem.writeAttempt at hatt
    simp only [hgi] at hatt
    split at hatt
    · exact absurd hatt (fun hh => Except.noConfusion hh)
    next m1 fsA hens =>
      split at hatt
      · exact absurd hatt (fun hh => Except.noConfusion hh)
      next fsB hwd =>
        -- the needed logical range and the allocation results
        have hcalc : fs1.calculate_blocks_needed 0 D.length
            = List.range' 0
              ((D.length + fs1.disk.block_size - 1) / fs1.disk.block_size + 1) := by
          show List.range' (0 / fs1.disk.block_size)
            ((0 + D.length + fs1.disk.block_size - 1) / fs1.disk.block_size + 1
              - 0 / fs1.disk.block_size) = _
          rw [Nat.zero_div, Nat.zero_add, Nat.sub_zero]
        have hnd : (fs1.calculate_blocks_needed 0 D.length).Nodup := by
          rw [hcalc]
          exact List.nodup_range' _ _ 1 (by omega)
        unfold FileSystem.ensure_blocks_allocated at hens
        rw [show ((List.range' 0 (Inode.new name now).blocks.length).zip
          (Inode.new name now).blocks) = ([] : List (Nat × Nat)) from rfl] at hens
        obtain ⟨hiA, hitA, hgA, hblkA, hmonoA, newPairs, hm1eq, hkeys, hvnodup, hprops⟩ :=
          ensureLoop_ok_elim hwf1 hnd hens
        have hm1 : m1 = newPairs := by
          rw [hm1eq, List.nil_append]
        rw [← hm1] at hvnodup hprops
        have hkeysR : m1.map Prod.fst = List.range' 0
            ((D.length + fs1.disk.block_size - 1) / fs1.disk.block_size + 1) := by
          rw [hkeys]
          rw [show (([] : List (Nat × Nat)).map Prod.fst) = ([] : List Nat) from rfl]
          rw [List.nil_append]
          rw [show List.filter (fun l => (List.lookup l ([] : List (Nat × Nat))).isNone)
            (fs1.calculate_blocks_needed 0 D.length)
            = fs1.calculate_blocks_needed 0 D.length
            from List.filter_eq_self.mpr (fun a _ => rfl)]
          exact hcalc
        have hlen1 : m1.length
            = (D.length + fs1.disk.block_size - 1) / fs1.disk.block_size + 1 := by
          have hc := congrArg List.length hkeysR
          simpa using hc
        have hlu : ∀ j, j < m1.length → m1.lookup j = (m1.map Prod.snd)[j]? := by
          intro j hj
          have hl := lookup_of_keys_range' m1 0
            ((D.length + fs1.disk.block_size - 1) / fs1.disk.block_size + 1)
            hkeysR j (by omega)
          rwa [Nat.zero_add] at hl
        have hlu2 : ∀ (j : Nat) (hj : j < m1.length),
            m1.lookup j = some ((m1.map Prod.snd).get ⟨j, by simpa using hj⟩) := by
          intro j hj
          rw [hlu j hj]
          rw [List.getElem?_eq_getElem (by simpa using hj)]
          rfl
        have hbj : ∀ (j : Nat) (hj : j < m1.length),
            1 ≤ (m1[j]).2 ∧ (m1[j]).2 < fs1.disk.total_blocks ∧
              fs1.disk.bitmapByte (m1[j]).2 = some 0 ∧
              fsA.disk.bitmapByte (m1[j]).2 = some 1 := by
          intro j hj
          have hpr := hprops (m1[j]) (List.getElem_mem hj)
          exact ⟨hpr.2.2.1, hpr.2.2.2.1, hpr.2.2.2.2.1, hpr.2.2.2.2.2⟩
        -- injectivity of the logical-to-physical mapping
        have hinj : ∀ j j' bj bj', m1.lookup j = some bj → m1.lookup j' = some bj' →
            j ≠ j' → bj ≠ bj' := by
          intro j j' bj bj' h1 h2 hne heq
          have hjK : j < m1.length := by
            have hmem := (lookup_isSome_iff_mem_keys m1 j).mp (by simp [h1])
            rw [hkeysR, List.mem_range'_1] at hmem
            omega
          have hjK' : j' < m1.length := by
            have hmem := (lookup_isSome_iff_mem_keys m1 j').mp (by simp [h2])
            rw [hkeysR, List.mem_range'_1] at hmem
            omega
          have e1 : (m1.map Prod.snd)[j]? = some bj := by
            rw [← hlu j hjK]
            exact h1
          have e2 : (m1.map Prod.snd)[j']? = some bj' := by
            rw [← hlu j' hjK']
            exact h2
          exact hne (List.getElem?_inj (by simpa using hjK) hvnodup
            (by rw [e1, e2, heq]))
        -- coverage of the data by the mapping
        have hcov : ∀ j, 0 ≤ j → j * fs1.disk.block_size < D.length →
            (m1.lookup j).isSome := by
          intro j _ hjlt
          have hjC : j < (D.length + fs1.disk.block_size - 1) / fs1.disk.block_size :=
            lt_ceil_div_of_mul_lt j D.length fs1.disk.block_size hbs hjlt
          have hjm : j < m1.length := by omega
          rw [hlu2 j hjm]
          rfl
        -- the write loop's effect on the data blocks
        have hwfA : fsA.disk.wf := wf_of_geomEq hgA hwf1
        have hwd' : FileSystem.writeLoop D m1 D.length fsA
            (0 * fs1.disk.block_size) (0 * fs1.disk.block_size) = .ok fsB := by
          rw [Nat.zero_mul]
          exact hwd
        obtain ⟨hiB, hitB, hgB, hcontent, hframe⟩ :=
          writeLoop_zero_ok_elim D.length fsA 0 hwfA hgA.2.1
            (by rw [Nat.zero_mul]; omega) hcov hinj hwd'
        -- the inode-table save
        unfold FileSystem.update_inode at hatt
        have hwfB : fsB.disk.wf := wf_of_geomEq hgB hwfA
        have hitbB : fsB.inode_table_block = 1 := hitB.trans (hitA.trans hitb1)
        obtain ⟨hi2, hit2, hg2, hb21, hb2o, hblk2⟩ := @save_ok_elim
          { fsB with
            inodes := FileSystem.dictInsert fsB.inodes name
              { Inode.new name now with
                blocks := (FileSystem.sortNat (m1.map Prod.fst)).map
                  (fun i => (m1.lookup i).getD 0)
                size := max (Inode.new name now).size (0 + D.length) } }
          fs2 hwfB hitbB hatt
        -- the stored inode's fields
        have hblocks1 : (FileSystem.sortNat (m1.map Prod.fst)).map
            (fun i => (m1.lookup i).getD 0) = m1.map Prod.snd := by
          rw [hkeysR, sortNat_eq_self (chain'_le_range' 0 _)]
          apply List.ext_getElem
          · simp [hlen1]
          · intro i h1 h2
            simp only [List.getElem_map, List.getElem_range', Nat.zero_add, Nat.one_mul]
            have hiK : i < m1.length := by
              simp only [List.length_map] at h2
              exact h2
            rw [hlu2 i hiK]
            simp only [Option.getD_some, List.get_eq_getElem, List.getElem_map]
        have hsize1 : max (Inode.new name now).size (0 + D.length) = D.length := by
          show max 0 (0 + D.length) = D.length
          simp
        have hlk2 : fs2.inodes.lookup name = some { Inode.new name now with
            blocks := m1.map Prod.snd, size := D.length } := by
          rw [hi2]
          show (FileSystem.dictInsert fsB.inodes name _).lookup name = _
          rw [lookup_dictInsert_self]
          rw [hblocks1, hsize1]
        -- geometry of the final state
        have hgAll : fs1.disk.geomEq fs2.disk :=
          geomEq_trans hgA (geomEq_trans hgB hg2)
        have hwf2 : fs2.disk.wf := wf_of_geomEq hgAll hwf1
        have htb2 : fs2.disk.total_blocks = fs1.disk.total_blocks := hgAll.2.2.1
        have hbsz2 : fs2.disk.block_size = fs1.disk.block_size := hgAll.2.1
        -- data-block contents in the final state
        have hcontent2 : ∀ (j : Nat) (hj : j < m1.length),
            j * fs1.disk.block_size < D.length →
            fs2.disk.blockAt ((m1[j]).2) =
              (D.drop (j * fs1.disk.block_size)).take fs1.disk.block_size ++
                (fsA.disk.blockAt ((m1[j]).2)).drop
                  (D.length - j * fs1.disk.block_size) := by
          intro j hj hjlt
          have hb := hbj j hj
          have hlkj : m1.lookup j = some ((m1[j]).2) := by
            rw [hlu2 j hj]
            simp
          have hne0 : (m1[j]).2 ≠ 0 := by omega
          have hne1 : (m1[j]).2 ≠ 1 := by
            intro h1
            rw [h1] at hb
            rw [hb1one] at hb
            exact absurd (Option.some.inj hb.2.2.1) (by omega)
          have hcB := hcontent j ((m1[j]).2) (Nat.zero_le j) hjlt hlkj
          rw [hblk2 _ hne0 hne1]
          exact hcB
        -- every data block reads back with full block length
        have hread : List.Forall₂
            (fun pb c => fs2.disk.read_block pb = .ok c ∧
              c.length = fs2.disk.block_size)
            (m1.map Prod.snd) ((m1.map Prod.snd).map fs2.disk.blockAt) := by
          rw [List.forall₂_map_right_iff]
          apply List.forall₂_same.mpr
          intro v hv
          obtain ⟨p, hpmem, rfl⟩ := List.mem_map.mp hv
          have hpr := hprops p hpmem
          have hvtb : p.2 < fs2.disk.total_blocks := by
            rw [htb2]
            exact hpr.2.2.2.1
          exact ⟨read_block_eq hvtb, blockAt_length hwf2 hvtb⟩
        have hbs2 : 0 < fs2.disk.block_size := hwf2.1
        have hrl := @readLoop_ok fs2 D.length (m1.map Prod.snd)
          ((m1.map Prod.snd).map fs2.disk.blockAt) hbs2 hread []
        -- truncating the concatenated blocks recovers D
        have hflat : (((m1.map Prod.snd).map fs2.disk.blockAt).flatten).take D.length
            = D := by
          apply flatten_take_eq hbs
          · intro c hc
            obtain ⟨v, hvmem, rfl⟩ := List.mem_map.mp hc
            obtain ⟨p, hpmem, rfl⟩ := List.mem_map.mp hvmem
            have hvtb : p.2 < fs2.disk.total_blocks := by
              rw [htb2]
              exact (hprops p hpmem).2.2.2.1
            rw [blockAt_length hwf2 hvtb]
            exact hbsz2
          · intro j hj hjlt
            have hjm : j < m1.length := by
              simp only [List.length_map] at hj
              exact hj
            refine ⟨(fsA.disk.blockAt ((m1[j]).2)).drop
              (D.length - j * fs1.disk.block_size), ?_⟩
            simp only [List.getElem_map]
            exact hcontent2 j hjm hjlt
          · simp only [List.length_map]
            rw [hlen1]
            have h1 := ceil_div_mul_ge D.length fs1.disk.block_size hbs
            have h2 : ((D.length + fs1.disk.block_size - 1) / fs1.disk.block_size)
                  * fs1.disk.block_size
                ≤ ((D.length + fs1.disk.block_size - 1) / fs1.disk.block_size + 1)
                  * fs1.disk.block_size :=
              Nat.mul_le_mul_right fs1.disk.block_size (by omega)
            omega
        have hrl2 : FileSystem.readLoop fs2 D.length [] (m1.map Prod.snd)
            = .ok D := by
          rw [hrl]
          simp only [List.nil_append, List.length_nil, Nat.sub_zero, hflat]
        -- assemble read_file
        have hne : ¬ (m1.map Prod.snd = ([] : List Nat)) := by
          apply List.ne_nil_of_length_pos
          simp only [List.length_map]
          rw [hlen1]
          exact Nat.succ_pos _
        unfold FileSystem.read_file
        simp only [hlk2]
        rw [if_neg hne]
        rw [hrl2]
  next h1 =>
    exact absurd (Prod.mk.inj (Except.ok.inj hwr)).1 (by simp)
  next e h1 h2 =>
    exact absurd hwr (fun hh => Except.noConfusion hh)

/-- Witness for C1: the concrete create-write-read round trip of `[1, 2, 3]`
on the 512-byte engine returns exactly `[1, 2, 3]`. -/
theorem claim_c1_witness :
    fs0C.create_file "a" 0 = .ok (true, fs1C) ∧
      fs1C.write_file "a" [1, 2, 3] 0 = .ok (true, fs2C) ∧
      fs2C.read_file "a" = .ok (some [1, 2, 3]) := by
  refine ⟨by decide, by decide, ?_⟩
  exact claim_c1_write_read_roundtrip fs0C fs1C fs2C "a" 0 [1, 2, 3]
    (by decide) (by decide) (by decide) (by decide)
